import Mathlib

/-!
Verification of the `@typed/route` runtime route engine (`src/AST.ts`,
`src/Route.ts`) in a shallow embedding.

The embedding translates the runtime algorithms of the repository:
the pattern AST, the smart `concat` constructor, the pattern parser,
the matcher compiler, the interpolator compiler, and the specificity
ordering used by `sortRoutes`.

Modelling conventions, used throughout:
* TypeScript records (`Record<string, string | ReadonlyArray<string>>`) are
  modelled as insertion-ordered association lists (`Rec`), with
  `Object.assign` semantics (`setKey`: an existing key keeps its position and
  is overwritten, a new key is appended).
* The mutable path-segment cursor and the mutable `URLSearchParams` are
  modelled by explicit state passing: a matcher takes the state and returns
  the produced record together with the updated state.
* Code paths on which the source throws an `Error` or a `TypeError`
  (contract violations such as `ensureSimpleAst` receiving a `Concat`,
  interpolating a missing required parameter, or `parseQueryParam` on a
  query chunk without `=`, where `parsePathSegment(undefined)` throws) are
  modelled as `Option.none` / failing matchers; in particular `parse` and
  `Route.parse` are `Option`-valued.
* `new URL(path, 'http://localhost')` inside `getPathAndQuery` is modelled
  as the WHATWG URL parser prescribes for scheme-less references against a
  special-scheme base: leading/trailing C0 controls and spaces are trimmed
  and ASCII tab/newline removed, the fragment starts at the first `#` and
  the query at the first `?`, both `/` and `\` separate path segments (a
  leading double separator introduces an authority), dot segments (`.`,
  `..` and their `%2e` spellings) are resolved, and each path segment is
  percent-encoded with the path percent-encode set (UTF-8, uppercase hex).
  The percent/plus decoding of `URLSearchParams` and references carrying
  their own scheme (`foo:bar`) are not modelled; inputs of interest contain
  neither.
* String indices are character counts (the source uses UTF-16 units; all
  inputs of interest are ASCII, where the two coincide).
-/

/-! ### Character-list string helpers -/

/-- Split a list of characters at every occurrence of the character `c`
(JavaScript `String.prototype.split` with a one-character separator). -/
def splitCharList (c : Char) : List Char → List (List Char)
  | [] => [[]]
  | x :: xs =>
    match splitCharList c xs with
    | [] => if x = c then [[], []] else [[x]]
    | h :: t => if x = c then [] :: h :: t else (x :: h) :: t

/-- String version of `splitCharList`. -/
def strSplitChar (c : Char) (s : String) : List String :=
  (splitCharList c s.data).map String.mk

/-- Split at the first occurrence of `c`: the part before it, and
(if `c` occurs) the part after it. -/
def splitFirstCharList (c : Char) : List Char → List Char × Option (List Char)
  | [] => ([], none)
  | x :: xs =>
    if x = c then ([], some xs)
    else
      match splitFirstCharList c xs with
      | (before, rest) => (x :: before, rest)

/-- String version of `splitFirstCharList`. -/
def splitFirstChar (c : Char) (s : String) : String × Option String :=
  match splitFirstCharList c s.data with
  | (before, rest) => (String.mk before, rest.map String.mk)

/-- `intercalate` for strings via character lists. -/
def strIntercalate (sep : String) : List String → String
  | [] => ""
  | [s] => s
  | s :: rest => s ++ sep ++ strIntercalate sep rest

/-- Character-count `startsWith`. -/
def strStartsWith (s pre : String) : Bool :=
  pre.data.isPrefixOf s.data

/-- Character-count `endsWith`. -/
def strEndsWith (s suf : String) : Bool :=
  suf.data.reverse.isPrefixOf s.data.reverse

/-- Drop the first `n` characters (JavaScript `slice(n)` on ASCII input). -/
def strDropLen (s : String) (n : Nat) : String :=
  String.mk (s.data.drop n)

/-- Drop the last character (JavaScript `slice(0, -1)`). -/
def strDropLast (s : String) : String :=
  String.mk s.data.dropLast

/-- A string that is empty or consists solely of whitespace
(`queryString.trim() === ''` in the source). -/
def isBlankStr (s : String) : Bool :=
  s.data.all fun c => c = ' ' ∨ c = '\t' ∨ c = '\n' ∨ c = '\r'

/-! ### Parameter records and query multimaps -/

/-- A captured parameter value: a single string or a list of strings. -/
inductive Val where
  | str (s : String)
  | list (l : List String)
deriving DecidableEq, Repr

/-- An insertion-ordered record of captured parameters, modelling the
JavaScript object `Record<string, string | ReadonlyArray<string>>`. -/
abbrev Rec := List (String × Val)

/-- Look up a key in a record. -/
def recLookup (m : Rec) (k : String) : Option Val :=
  (m.find? fun p => p.1 = k).map (·.2)

/-- Set a key in a record with JavaScript object-assignment semantics: an
existing key keeps its position and its value is replaced; a new key is
appended at the end. -/
def setKey (m : Rec) (k : String) (v : Val) : Rec :=
  if m.any (fun p => p.1 = k) then
    m.map fun p => if p.1 = k then (k, v) else p
  else
    m ++ [(k, v)]

/-- `Object.assign(target, source)`: assign every key of `source` into
`target`, in order. -/
def assignRec (target source : Rec) : Rec :=
  source.foldl (fun acc p => setKey acc p.1 p.2) target

/-- A query multimap, modelling `URLSearchParams` as an ordered list of
key/value entries (percent-decoding is not modelled; inputs of interest
contain no escapes). -/
abbrev Query := List (String × String)

/-- `URLSearchParams.get`: first value for the key, if any. -/
def qGet (q : Query) (k : String) : Option String :=
  (q.find? fun p => p.1 = k).map (·.2)

/-- `URLSearchParams.getAll`: all values for the key, in order. -/
def qGetAll (q : Query) (k : String) : List String :=
  (q.filter fun p => p.1 = k).map (·.2)

/-- `URLSearchParams.delete`: remove every entry for the key. -/
def qDelete (q : Query) (k : String) : Query :=
  q.filter fun p => ¬(p.1 = k)

/-! ### The pattern AST (`src/AST.ts`)

`RAST` models the closed union `AST` of the source: `Literal`,
`UnnamedParam`, `Param`, `ZeroOrMore`, `OneOrMore`, `Optional`, `Prefix`
(constructor `prefixed` here), `Concat` (constructor `concatNode`),
`QueryParams` and `WithSchema`.  The schema payload of `WithSchema` is
irrelevant to every structural algorithm (matching, rendering, paths) and is
not modelled.  The query-parameter list is represented by the mutually
inductive `QPList` of `QP key value` pairs, modelling
`ReadonlyArray<QueryParam<string, AST>>`. -/

mutual
inductive RAST where
  | literal (s : String)
  | unnamedParam
  | param (name : String)
  | zeroOrMore (t : RAST)
  | oneOrMore (t : RAST)
  | optional (t : RAST)
  | prefixed (pre : String) (t : RAST)
  | concatNode (l r : RAST)
  | queryParams (previous : RAST) (params : QPList)
  | withSchema (t : RAST)
deriving DecidableEq, Repr
inductive QP where
  | mk (key : String) (value : RAST)
deriving DecidableEq, Repr
inductive QPList where
  | nil
  | cons (head : QP) (tail : QPList)
deriving DecidableEq, Repr
end

/-- The `_tag` discriminator string of an AST node. -/
def tagName : RAST → String
  | .literal _ => "Literal"
  | .unnamedParam => "UnnamedParam"
  | .param _ => "Param"
  | .zeroOrMore _ => "ZeroOrMore"
  | .oneOrMore _ => "OneOrMore"
  | .optional _ => "Optional"
  | .prefixed _ _ => "Prefix"
  | .concatNode _ _ => "Concat"
  | .queryParams _ _ => "QueryParams"
  | .withSchema _ => "WithSchema"

/-- The key of a query-parameter pair. -/
def QP.key : QP → String
  | .mk k _ => k

/-- The value AST of a query-parameter pair. -/
def QP.value : QP → RAST
  | .mk _ v => v

/-- `QPList` as a plain list of key/value pairs. -/
def qpToList : QPList → List (String × RAST)
  | .nil => []
  | .cons (.mk k v) rest => (k, v) :: qpToList rest

/-- `right.params.some((y) => x.key === y.key)`: does the list contain the
key? -/
def qpHasKey : QPList → String → Bool
  | .nil, _ => false
  | .cons h t, k => h.key = k || qpHasKey t k

/-- `left.params.filter((x) => !right.params.some((y) => x.key === y.key))`. -/
def qpFilterNotIn : QPList → QPList → QPList
  | .nil, _ => .nil
  | .cons h t, ys => if qpHasKey ys h.key then qpFilterNotIn t ys else .cons h (qpFilterNotIn t ys)

/-- List concatenation on `QPList` (array spread in the source). -/
def qpAppend : QPList → QPList → QPList
  | .nil, ys => ys
  | .cons h t, ys => .cons h (qpAppend t ys)

/-- First value stored under a key, if any. -/
def qpLookup : QPList → String → Option RAST
  | .nil, _ => none
  | .cons h t, k => if h.key = k then some h.value else qpLookup t k

/-! ### The missing `src/Path` DSL

The repository's runtime `Path` module (`P.removeLeadingSlash`,
`P.removeTrailingSlash`, `P.pathJoin`, `P.unnamed`, …) is not among the
provided sources; only its type-level counterpart is.  The definitions below
are modelled from the spec. -/

/-- Modelled from the spec: `P.removeTrailingSlash` of the missing Path DSL.
Strips a single trailing `/`, so that a literal of `""` or `"/"` becomes
empty (§4.2 "empty literal": Literal of empty string or of `/`). -/
def removeTrailingSlash (s : String) : String :=
  match s.data.reverse with
  | c :: rest => if c = '/' then String.mk rest.reverse else s
  | [] => s

/-- Modelled from the spec: `P.removeLeadingSlash` of the missing Path DSL.
Strips a single leading `/`. -/
def removeLeadingSlash (s : String) : String :=
  match s.data with
  | c :: rest => if c = '/' then String.mk rest else s
  | [] => s

/-- Modelled from the spec: `P.unnamed`, the designated wildcard token of the
missing Path DSL (§4.1 "a designated wildcard token → UnnamedParam"). -/
def unnamedToken : String := "(.*)"

/-- Modelled from the spec: one part of `P.pathJoin`.  A query part (starting
with the DSL's `\?` marker or a rendered `?…` query string) is glued as-is;
any other non-empty part is glued with exactly one leading `/` (§4.4: the
non-empty groups are joined by `/`, a query group is appended as `?…`). -/
def formatPart (p : String) : String :=
  if strStartsWith p "\\?" ∨ strStartsWith p "?" then p
  else
    let r := String.mk (p.data.dropWhile (· = '/'))
    if r = "" then "" else "/" ++ r

/-- Modelled from the spec: `P.pathJoin` of the missing Path DSL: the
concatenation of the formatted parts. -/
def pathJoin : List String → String
  | [] => ""
  | p :: rest => formatPart p ++ pathJoin rest

/-! ### Concatenation (`src/AST.ts`, `concat` / `isEmptyLiteral`) -/

/-- `isEmptyLiteral`: a Literal whose text, after `removeTrailingSlash`, is
empty. -/
def isEmptyLiteral : RAST → Bool
  | .literal s => removeTrailingSlash s = ""
  | _ => false

/-- The smart constructor `concat(left, right)` of `src/AST.ts`: keeps
`QueryParams` outermost and merges query-parameter lists with right-hand
precedence. -/
def concat (left right : RAST) : RAST :=
  match left, right with
  | .queryParams lp lps, .queryParams rp rps =>
    .queryParams (if isEmptyLiteral rp then lp else .concatNode lp rp)
      (qpAppend (qpFilterNotIn lps rps) rps)
  | .queryParams lp lps, r => .queryParams (if isEmptyLiteral lp then r else .concatNode lp r) lps
  | l, .queryParams rp rps => .queryParams (if isEmptyLiteral rp then l else .concatNode l rp) rps
  | l, r => .concatNode l r

/-! ### `toPath` (`src/AST.ts`, `toPath_`) -/

mutual
/-- `toPath_` of the source: render an AST back to its pattern string using
the Path DSL combinators. -/
def toPathAux : RAST → String
  | .literal s => s
  | .unnamedParam => unnamedToken
  | .param n => ":" ++ n
  | .zeroOrMore t => toPathAux t ++ "*"
  | .oneOrMore t => toPathAux t ++ "+"
  | .optional t => toPathAux t ++ "?"
  | .prefixed p t => "\x7b" ++ p ++ toPathAux t ++ "\x7d"
  | .concatNode l r => pathJoin [toPathAux l, toPathAux r]
  | .withSchema t => toPathAux t
  | .queryParams prev ps =>
    pathJoin [toPathAux prev, "\\?" ++ strIntercalate "&" (toPathQPs ps)]
/-- The `ast.params.map(({key, value}) => P.queryParam(key, toPath_(value)))`
part of `toPath_`. -/
def toPathQPs : QPList → List String
  | .nil => []
  | .cons (.mk k v) rest => (k ++ "=" ++ toPathAux v) :: toPathQPs rest
end

/-- `toPath`: the cached wrapper applies `P.pathJoin` once more to the
rendered string. -/
def toPath (ast : RAST) : String :=
  pathJoin [toPathAux ast]

/-! ### Group decomposition (`getAstSegments`) -/

/-- `getAstSegments`: decompose an AST into its ordered list of groups.  A
`Literal('/')` contributes nothing; `Concat` flattens both sides;
`QueryParams` appends its previous node's groups and then itself as a final
group; every other node forms a one-node group. -/
def getAstSegments : RAST → List (List RAST)
  | .literal s => if s = "/" then [] else [[.literal s]]
  | .unnamedParam => [[.unnamedParam]]
  | .param n => [[.param n]]
  | .zeroOrMore t => [[.zeroOrMore t]]
  | .oneOrMore t => [[.oneOrMore t]]
  | .optional t => [[.optional t]]
  | .prefixed p t => [[.prefixed p t]]
  | .concatNode l r => getAstSegments l ++ getAstSegments r
  | .queryParams prev ps => getAstSegments prev ++ [[.queryParams prev ps]]
  | .withSchema t => getAstSegments t

/-! ### The matcher compiler (`astToMatcher` and friends)

The mutable `(pathSegments, query)` pair is the matcher state; a matcher
returns the produced record together with the state left behind by its
mutations.  The `ctx.unnamed` counter, advanced while compiling, is threaded
through compilation as an explicit `Nat`. -/

/-- The state of one match invocation: the path-segment cursor and the query
multimap. -/
abbrev MState := List String × Query

/-- A compiled matcher (`Matcher` in the source). -/
abbrev Matcher := MState → Option (Rec × MState)

/-- `getParamByKey`: capture one segment (or, when `isMultiple`, the whole
remaining cursor as one list value, without consuming it). -/
def getParamByKey (key : String) (isOptional isMultiple : Bool) : Matcher :=
  fun st =>
    if ¬isOptional ∧ st.1 = [] then none
    else if isMultiple then some ([(key, .list st.1)], st)
    else
      match st.1 with
      | [] => some ([], st)
      | v :: rest =>
        if v = "" then (if isOptional then some ([], (rest, st.2)) else none)
        else some ([(key, .str v)], (rest, st.2))

/-- `simpleAstToMatcher`: compile a non-`Concat`, non-`QueryParams` node.
The `Concat`/`QueryParams` cases, on which the source throws
(`ensureSimpleAst`), are modelled as a never-matching matcher. -/
def simpleAstToMatcher : RAST → Nat → Bool → Bool → Matcher × Nat
  | .optional t, ctx, _, isMultiple => simpleAstToMatcher t ctx true isMultiple
  | .oneOrMore t, ctx, isOptional, _ => simpleAstToMatcher t ctx isOptional true
  | .zeroOrMore t, ctx, _, _ => simpleAstToMatcher t ctx true true
  | .withSchema t, ctx, isOptional, isMultiple => simpleAstToMatcher t ctx isOptional isMultiple
  | .literal s, ctx, _, _ =>
    (fun st =>
      match st.1 with
      | s0 :: rest => if s0 = s then some ([], (rest, st.2)) else none
      | [] => none, ctx)
  | .prefixed p t, ctx, isOptional, isMultiple =>
    let (inner, ctx') := simpleAstToMatcher t ctx isOptional isMultiple
    (fun st =>
      match st.1 with
      | s0 :: rest =>
        if strStartsWith s0 p then inner (strDropLen s0 p.length :: rest, st.2) else none
      | [] => none, ctx')
  | .param n, ctx, isOptional, isMultiple => (getParamByKey n isOptional isMultiple, ctx)
  | .unnamedParam, ctx, isOptional, isMultiple =>
    (getParamByKey (Nat.repr ctx) isOptional isMultiple, ctx + 1)
  | .concatNode _ _, ctx, _, _ => (fun _ => none, ctx)
  | .queryParams _ _, ctx, _, _ => (fun _ => none, ctx)

/-- `getQueryParamByKey`: fetch values for a declared query key from the
query multimap. -/
def getQueryParamByKey (key outKey : String) (isOptional isMultiple : Bool) : Matcher :=
  fun st =>
    if isMultiple then
      let values := qGetAll st.2 key
      if isOptional then some ([(outKey, .list values)], st)
      else if values = [] then none
      else some ([(outKey, .list values)], st)
    else
      match qGet st.2 key with
      | none => if isOptional then some ([], st) else none
      | some v => some ([(outKey, .str v)], st)

/-- `simpleAstToQueryMatcher`: compile the value AST of one declared query
key.  The `Prefix` case rewrites the query multimap in place (delete then
re-append the trimmed values), as the source does. -/
def simpleAstToQueryMatcher : String → RAST → Nat → Bool → Bool → Matcher × Nat
  | key, .optional t, ctx, _, isMultiple => simpleAstToQueryMatcher key t ctx true isMultiple
  | key, .oneOrMore t, ctx, isOptional, _ => simpleAstToQueryMatcher key t ctx isOptional true
  | key, .zeroOrMore t, ctx, _, _ => simpleAstToQueryMatcher key t ctx true true
  | key, .withSchema t, ctx, isOptional, isMultiple =>
    simpleAstToQueryMatcher key t ctx isOptional isMultiple
  | key, .literal s, ctx, _, _ =>
    (fun st => if qGet st.2 key = some s then some ([], st) else none, ctx)
  | key, .prefixed p t, ctx, isOptional, isMultiple =>
    let (inner, ctx') := simpleAstToQueryMatcher key t ctx isOptional isMultiple
    (fun st =>
      let values := qGetAll st.2 key
      let trimmed := values.map fun v => strDropLen v p.length
      let q' := qDelete st.2 key ++ trimmed.map fun v => (key, v)
      inner (st.1, q'), ctx')
  | key, .param n, ctx, isOptional, isMultiple =>
    (getQueryParamByKey key n isOptional isMultiple, ctx)
  | key, .unnamedParam, ctx, isOptional, isMultiple =>
    (getQueryParamByKey key (Nat.repr ctx) isOptional isMultiple, ctx + 1)
  | _, .concatNode _ _, ctx, _, _ => (fun _ => none, ctx)
  | _, .queryParams _ _, ctx, _, _ => (fun _ => none, ctx)

/-- Compile the value matchers of a query block, threading the unnamed
counter. -/
def compileQueryList : QPList → Nat → List Matcher × Nat
  | .nil, ctx => ([], ctx)
  | .cons (.mk k v) rest, ctx =>
    let (m, ctx') := simpleAstToQueryMatcher k v ctx false false
    let (ms, ctx'') := compileQueryList rest ctx'
    (m :: ms, ctx'')

/-- Run matchers in sequence, threading the state and object-assigning the
produced records; the first failure aborts. -/
def runMatchers : List Matcher → MState → Rec → Option (Rec × MState)
  | [], st, acc => some (acc, st)
  | m :: ms, st, acc =>
    match m st with
    | none => none
    | some (r, st') => runMatchers ms st' (assignRec acc r)

/-- `queryParamsToMatcher`: all declared query params must match (AND). -/
def queryParamsToMatcher (ps : QPList) (ctx : Nat) : Matcher × Nat :=
  let (ms, ctx') := compileQueryList ps ctx
  (fun st => runMatchers ms st [], ctx')

/-- Compile the sub-matchers of a compound (multi-node) group. -/
def compileSimpleList : List RAST → Nat → List Matcher × Nat
  | [], ctx => ([], ctx)
  | a :: rest, ctx =>
    let (m, ctx') := simpleAstToMatcher a ctx false false
    let (ms, ctx'') := compileSimpleList rest ctx'
    (m :: ms, ctx'')

/-- Run every sub-matcher of a compound group against the shared state (the
source runs all of them even after a failure, collecting `Option`s), then
merge if all succeeded. -/
def collectParts : List Matcher → MState → List (Option Rec) × MState
  | [], st => ([], st)
  | m :: ms, st =>
    match m st with
    | some (r, st') =>
      let (rs, st'') := collectParts ms st'
      (some r :: rs, st'')
    | none =>
      let (rs, st') := collectParts ms st
      (none :: rs, st')

/-- `astSegmentToMatcher`: compile one group.  The empty-group and
`Concat`-inside-group cases, on which the source throws, are modelled as a
never-matching matcher. -/
def astSegmentToMatcher : List RAST → Nat → Matcher × Nat
  | [], ctx => (fun _ => none, ctx)
  | [ast], ctx =>
    match ast with
    | .concatNode _ _ => (fun _ => none, ctx)
    | .queryParams _ ps => queryParamsToMatcher ps ctx
    | a => simpleAstToMatcher a ctx false false
  | multi, ctx =>
    let (parts, ctx') := compileSimpleList multi ctx
    (fun st =>
      match collectParts parts st with
      | (results, st') =>
        if results.all (·.isSome) then
          some (results.foldl (fun acc r => assignRec acc (r.getD [])) [], st')
        else none, ctx')

/-- Compile the group matchers of an AST in order, threading the unnamed
counter. -/
def compileMatchers : List (List RAST) → Nat → List Matcher
  | [], _ => []
  | seg :: rest, ctx =>
    let (m, ctx') := astSegmentToMatcher seg ctx
    m :: compileMatchers rest ctx'

/-- `astToMatcher(ast, end)`: run all group matchers in order; if `end` is
set and path segments remain in the cursor afterwards, fail. -/
def astToMatcher (ast : RAST) (endFlag : Bool) : List String → Query → Option Rec :=
  fun pathSegments query =>
    match runMatchers (compileMatchers (getAstSegments ast) 0) (pathSegments, query) [] with
    | none => none
    | some (result, (segs', _)) =>
      if endFlag ∧ segs' ≠ [] then none else some result

/-! ### The interpolator compiler (`astToInterpolation` and friends)

An `Interpolater` is modelled as `Rec → Option String`; `none` models the
`Error`s the source throws on caller-contract violations (missing required
parameter, list where a single value is expected, …). -/

/-- `InterpolationPart`: a constant string or a rendering function. -/
inductive InterpolationPart where
  | lit (value : String)
  | fnPart (interpolate : Rec → Option String)

/-- Apply an interpolation part to a parameter record. -/
def InterpolationPart.render (params : Rec) : InterpolationPart → Option String
  | .lit v => some v
  | .fnPart f => f params

/-- `getParam(key, isOptional, isMultiple)` of the interpolator: read a
parameter value, with the source's JavaScript truthiness checks (a missing
value and the empty string are both falsy). -/
def getParam (key : String) (isOptional isMultiple : Bool) : Rec → Option String :=
  fun params =>
    match recLookup params key with
    | none => if isOptional then some "" else none
    | some (.str s) =>
      if s = "" then (if isOptional then some "" else none) else some s
    | some (.list l) =>
      if ¬isOptional ∧ l = [] then none
      else if isMultiple then some (strIntercalate "/" l)
      else none

/-- `simpleAstToInterpolationPart`.  The `Concat`/`QueryParams` cases, on
which the source throws (`ensureSimpleAst`), are modelled as an
always-failing part. -/
def simpleAstToInterpolationPart : RAST → Nat → Bool → Bool → InterpolationPart × Nat
  | .literal s, ctx, _, _ => (.lit s, ctx)
  | .oneOrMore t, ctx, isOptional, _ => simpleAstToInterpolationPart t ctx isOptional true
  | .optional t, ctx, _, isMultiple => simpleAstToInterpolationPart t ctx true isMultiple
  | .param n, ctx, isOptional, isMultiple => (.fnPart (getParam n isOptional isMultiple), ctx)
  | .prefixed p t, ctx, isOptional, isMultiple =>
    let (inner, ctx') := simpleAstToInterpolationPart t ctx isOptional isMultiple
    (match inner with
     | .lit v => .lit (p ++ v)
     | .fnPart f => .fnPart fun params => (f params).map fun v => if v = "" then "" else p ++ v,
     ctx')
  | .unnamedParam, ctx, isOptional, isMultiple =>
    (.fnPart (getParam (Nat.repr ctx) isOptional isMultiple), ctx + 1)
  | .withSchema t, ctx, isOptional, isMultiple =>
    simpleAstToInterpolationPart t ctx isOptional isMultiple
  | .zeroOrMore t, ctx, _, _ => simpleAstToInterpolationPart t ctx true true
  | .concatNode _ _, ctx, _, _ => (.fnPart fun _ => none, ctx)
  | .queryParams _ _, ctx, _, _ => (.fnPart fun _ => none, ctx)

/-- `queryParamToInterpolationPart`.  (In the source this is passed directly
to `Array.prototype.map`, so its `ctx` parameter actually receives the array
index, not a counter object; an unnamed param inside a query value therefore
reads the key `"NaN"`.  The counter argument here is only ever used through
`Nat.repr`, so we thread a dummy `0`; no claim exercises unnamed query
values.) -/
def queryParamToInterpolationPart (k : String) (v : RAST) : InterpolationPart :=
  match simpleAstToInterpolationPart v 0 false false with
  | (.lit val, _) => .lit (k ++ "=" ++ val)
  | (.fnPart f, _) =>
    .fnPart fun params => (f params).map fun value =>
      if value = "" then "" else k ++ "=" ++ value

/-- Render the query parts, dropping empty contributions and joining with
`&`; an entirely empty query renders as `''`, otherwise `?…` is produced. -/
def queryParamsToInterpolationPart (ps : QPList) : InterpolationPart :=
  let rec parts : QPList → List InterpolationPart
    | .nil => []
    | .cons (.mk k v) rest => queryParamToInterpolationPart k v :: parts rest
  let compiled := parts ps
  .fnPart fun params => do
    let vs ← compiled.mapM (InterpolationPart.render params)
    let query := strIntercalate "&" (vs.filter (· ≠ ""))
    pure (if query = "" then "" else "?" ++ query)

/-- Compile the sub-parts of a compound (multi-node) group; rendering
concatenates the sub-renders, an empty sub-render contributing nothing. -/
def compileSimpleInterpList : List RAST → Nat → List InterpolationPart × Nat
  | [], ctx => ([], ctx)
  | a :: rest, ctx =>
    let (p, ctx') := simpleAstToInterpolationPart a ctx false false
    let (ps, ctx'') := compileSimpleInterpList rest ctx'
    (p :: ps, ctx'')

/-- `astSegmentToInterpolationPart`: compile one group.  The empty-group and
`Concat`-inside-group cases, on which the source throws, are modelled as an
always-failing part. -/
def astSegmentToInterpolationPart : List RAST → Nat → InterpolationPart × Nat
  | [], ctx => (.fnPart fun _ => none, ctx)
  | [ast], ctx =>
    match ast with
    | .concatNode _ _ => (.fnPart fun _ => none, ctx)
    | .queryParams _ ps => (queryParamsToInterpolationPart ps, ctx)
    | a => simpleAstToInterpolationPart a ctx false false
  | multi, ctx =>
    let (parts, ctx') := compileSimpleInterpList multi ctx
    (.fnPart fun params => do
      let vs ← parts.mapM (InterpolationPart.render params)
      pure (String.join vs), ctx')

/-- Compile the group parts of an AST in order, threading the unnamed
counter. -/
def compileInterpParts : List (List RAST) → Nat → List InterpolationPart
  | [], _ => []
  | seg :: rest, ctx =>
    let (p, ctx') := astSegmentToInterpolationPart seg ctx
    p :: compileInterpParts rest ctx'

/-- `pathJoin(...) || '/'` of the source: an entirely empty rendering falls
back to `/`. -/
def orSlash (s : String) : String := if s = "" then "/" else s

/-- Is a compiled part a constant literal? -/
def InterpolationPart.isLit : InterpolationPart → Bool
  | .lit _ => true
  | .fnPart _ => false

/-- The literal value of a part (`''` for a function part; only used when
all parts are literal). -/
def InterpolationPart.litValue : InterpolationPart → String
  | .lit v => v
  | .fnPart _ => ""

/-- `astToInterpolation`: a constant string when no group contains a
parameter, otherwise a rendering function. -/
def astToInterpolation (ast : RAST) : InterpolationPart :=
  let parts := compileInterpParts (getAstSegments ast) 0
  if parts.all (·.isLit) then
    .lit (orSlash (pathJoin (parts.map (·.litValue))))
  else
    .fnPart fun params => do
      let vs ← parts.mapM (InterpolationPart.render params)
      pure (orSlash (pathJoin vs))

/-! ### `getPathAndQuery` and the pattern parser (`src/AST.ts`) -/

/-- Drop a leading empty segment (`if (pathSegments[0] === '') shift()`). -/
def dropHeadEmpty : List String → List String
  | [] => []
  | s :: rest => if s = "" then rest else s :: rest

/-- Drop a trailing empty segment
(`if (pathSegments[length - 1] === '') pop()`). -/
def dropLastEmpty (l : List String) : List String :=
  match l.reverse with
  | [] => l
  | s :: rest => if s = "" then rest.reverse else l

/-- Parse a search string into a query multimap, as `URLSearchParams` does:
split on `&`, skip empty chunks, split each chunk at its first `=` (a chunk
without `=` maps to the empty value).  Percent- and `+`-decoding are not
modelled; inputs of interest contain no escapes. -/
def parseSearch (s : String) : Query :=
  ((strSplitChar '&' s).filter (· ≠ "")).map fun p =>
    match splitFirstChar '=' p with
    | (k, some v) => (k, v)
    | (k, none) => (k, "")

/-- An ASCII tab, line feed or carriage return (the URL parser removes these
from its input wholesale). -/
def isTabOrNewline (c : Char) : Bool :=
  c = '\t' ∨ c = '\n' ∨ c = '\r'

/-- A C0 control (`U+0000`–`U+001F`) or `U+0020` SPACE (the URL parser trims
these from both ends of its input). -/
def isC0OrSpace (c : Char) : Bool :=
  c.toNat < 0x20 ∨ c = ' '

/-- Trim leading and trailing C0 controls and spaces. -/
def trimC0SpaceEnds (l : List Char) : List Char :=
  ((l.dropWhile isC0OrSpace).reverse.dropWhile isC0OrSpace).reverse

/-- A path-segment separator of a special-scheme (here `http`) URL: both `/`
and `\` separate segments. -/
def isSlashChar (c : Char) : Bool :=
  c = '/' ∨ c = '\\'

/-- Split a character list at every `/` or `\`. -/
def splitSlashList : List Char → List (List Char)
  | [] => [[]]
  | x :: xs =>
    match splitSlashList xs with
    | [] => [[x]]
    | h :: t => if isSlashChar x then [] :: h :: t else (x :: h) :: t

/-- A single-dot path segment: `.` or a percent-encoded spelling of it
(`%2e`, case-insensitively). -/
def isSingleDotSeg (seg : List Char) : Bool :=
  seg = ['.'] ∨ seg = ['%', '2', 'e'] ∨ seg = ['%', '2', 'E']

/-- A double-dot path segment: `..` or any spelling of it with one or both
dots percent-encoded (case-insensitively). -/
def isDoubleDotSeg (seg : List Char) : Bool :=
  seg = ['.', '.'] ∨
    seg = ['.', '%', '2', 'e'] ∨ seg = ['.', '%', '2', 'E'] ∨
    seg = ['%', '2', 'e', '.'] ∨ seg = ['%', '2', 'E', '.'] ∨
    seg = ['%', '2', 'e', '%', '2', 'e'] ∨ seg = ['%', '2', 'e', '%', '2', 'E'] ∨
    seg = ['%', '2', 'E', '%', '2', 'e'] ∨ seg = ['%', '2', 'E', '%', '2', 'E']

/-- The URL path state's dot-segment resolution: a double-dot segment
removes the previous segment, a single-dot segment is skipped, and a dot
segment in final position additionally leaves a trailing empty segment. -/
def resolveDotSegments (acc : List (List Char)) : List (List Char) → List (List Char)
  | [] => acc
  | seg :: rest =>
    let acc' := if isDoubleDotSeg seg then acc.dropLast
      else if isSingleDotSeg seg then acc
      else acc ++ [seg]
    if rest = [] ∧ (isDoubleDotSeg seg ∨ isSingleDotSeg seg) then acc' ++ [[]]
    else resolveDotSegments acc' rest

/-- An uppercase hexadecimal digit. -/
def hexDigit (n : Nat) : Char :=
  if n < 10 then Char.ofNat (0x30 + n) else Char.ofNat (0x37 + n)

/-- The UTF-8 bytes of a character. -/
def utf8Bytes (c : Char) : List Nat :=
  let n := c.toNat
  if n < 0x80 then [n]
  else if n < 0x800 then [0xC0 + n / 0x40, 0x80 + n % 0x40]
  else if n < 0x10000 then
    [0xE0 + n / 0x1000, 0x80 + n / 0x40 % 0x40, 0x80 + n % 0x40]
  else
    [0xF0 + n / 0x40000, 0x80 + n / 0x1000 % 0x40, 0x80 + n / 0x40 % 0x40,
     0x80 + n % 0x40]

/-- The WHATWG path percent-encode set: C0 controls, DEL and everything
non-ASCII, space, `"`, `<`, `>`, backtick (`U+0060`), `#`, `?` and the two
braces. -/
def inPathEncodeSet (c : Char) : Bool :=
  c.toNat < 0x20 ∨ 0x7E < c.toNat ∨ c = ' ' ∨ c = '"' ∨ c = '<' ∨ c = '>' ∨
    c.toNat = 0x60 ∨ c = '#' ∨ c = '?' ∨ c = '{' ∨ c = '}'

/-- Percent-encode one path character: its UTF-8 bytes in uppercase hex if
it lies in the path percent-encode set, the character itself otherwise. -/
def encodePathChar (c : Char) : List Char :=
  if inPathEncodeSet c then
    (utf8Bytes c).flatMap fun b => ['%', hexDigit (b / 16), hexDigit (b % 16)]
  else [c]

/-- Percent-encode a whole path segment. -/
def encodePathSeg (seg : List Char) : List Char :=
  seg.flatMap encodePathChar

/-- The raw path segments of a URL reference whose query and fragment have
already been removed: a reference starting with two separators is
scheme-relative (all leading separators and then the authority are skipped;
the path restarts at the next separator), one starting with a single
separator is path-absolute, and anything else is resolved against the base
path `/` (which has the same segments).  A reference carrying its own scheme
is not modelled. -/
def urlPathSegments (pq : List Char) : List (List Char) :=
  match pq with
  | [] => [[]]
  | [c] => if isSlashChar c then [[]] else splitSlashList [c]
  | c1 :: c2 :: rest =>
    if isSlashChar c1 ∧ isSlashChar c2 then
      match (rest.dropWhile isSlashChar).dropWhile (fun c => !isSlashChar c) with
      | [] => [[]]
      | _ :: afterSep => splitSlashList afterSep
    else if isSlashChar c1 then splitSlashList (c2 :: rest)
    else splitSlashList pq

/-- `getPathAndQuery(path)`: split a concrete URL reference into path
segments and query multimap.  `new URL(path, 'http://localhost')` is
modelled as the WHATWG parser prescribes for scheme-less references (see the
file header): trim C0 controls and spaces from the ends, remove ASCII
tab/newline, cut the fragment at the first `#` and the query at the first
`?`, split the path on `/` and `\` (skipping an authority introduced by a
leading double separator), resolve dot segments, percent-encode each
segment with the path percent-encode set, and serialize the pathname as a
`/`-preceded segment list.  The resulting `pathname` is then split exactly
as the source's `getPathAndQuery` does: on `/`, dropping an empty first and
last segment. -/
def getPathAndQuery (path : String) : List String × Query :=
  let cs := (trimC0SpaceEnds path.data).filter fun c => !isTabOrNewline c
  let beforeHash := (splitFirstCharList '#' cs).1
  let (pq, searchOpt) := splitFirstCharList '?' beforeHash
  let resolved := resolveDotSegments [] (urlPathSegments pq)
  let pathname := String.mk ((resolved.map fun seg => '/' :: encodePathSeg seg).join)
  (dropLastEmpty (dropHeadEmpty (strSplitChar '/' pathname)),
   parseSearch (String.mk (searchOpt.getD [])))

/-- `concatAll`: left fold of the plain `Concat` constructor
(`asts.reduce((acc, ast) => new Concat(acc, ast))`).  The empty case is
unreachable in the source. -/
def concatAll : List RAST → RAST
  | [] => .literal "/"
  | h :: t => t.foldl .concatNode h

/-- `parseParam`: strip trailing `?` / `*` / `+` modifiers (processed on the
reversed character list to keep the recursion structural). -/
def parseParamRev : List Char → RAST
  | '?' :: rest => .optional (parseParamRev rest)
  | '*' :: rest => .zeroOrMore (parseParamRev rest)
  | '+' :: rest => .oneOrMore (parseParamRev rest)
  | rest => .param (String.mk rest.reverse)

/-- `parseParam(param)` on the text after the leading `:`. -/
def parseParam (s : String) : RAST :=
  parseParamRev s.data.reverse

/-- `parsePrefix`: `part.slice(1, -1).split(':')` gives the prefix text and
(optionally) the param text.  Pieces after a second `:` are discarded by the
source's destructuring. -/
def parsePrefix (part : String) : RAST :=
  match strSplitChar ':' (String.mk (part.data.drop 1).dropLast) with
  | [] => .prefixed "" .unnamedParam
  | [pfx] => .prefixed pfx .unnamedParam
  | pfx :: seg :: _ => .prefixed pfx (parseParam seg)

/-- `parsePathPart`: brace prefix, wildcard token, `:param`, or literal. -/
def parsePathPart (part : String) : RAST :=
  if part.data.head? = some '{' then parsePrefix part
  else if part = unnamedToken ∨ part = "*" then .unnamedParam
  else if part.data.head? = some ':' then parseParam (strDropLen part 1)
  else .literal part

/-- `splitByPrefixes`: `segment.split(/(\{.+\})/g)`, keeping the captured
separator, with empty pieces replaced by `/`.  The greedy regex matches at
most once, from the first `{` to the last `}` (when at least one character
lies between); otherwise the segment is returned whole. -/
def splitByPrefixes (segment : String) : List String :=
  let cs := segment.data
  match cs.findIdx? (· = '{'), (cs.reverse.findIdx? (· = '}')).map (cs.length - 1 - ·) with
  | some i, some j =>
    if i + 2 ≤ j then
      [String.mk (cs.take i), String.mk ((cs.drop i).take (j + 1 - i)), String.mk (cs.drop (j + 1))].map
        fun s => if s = "" then "/" else s
    else [segment]
  | _, _ => [segment]

/-- `parsePathSegment`: tokenize one raw path segment and fold the adjacent
sub-nodes with `Concat`. -/
def parsePathSegment (segment : String) : RAST :=
  match (splitByPrefixes segment).map parsePathPart with
  | [] => .literal "/"
  | [p] => p
  | parts => concatAll parts

/-- Split a character list at every occurrence of the two-character escape
sequence `\?` (JavaScript `path.split('\\?')`, whose separator is the
two-character string `\?`). -/
def splitBackslashQ : List Char → List (List Char)
  | [] => [[]]
  | [c] => [[c]]
  | c1 :: c2 :: rest =>
    if c1 = '\\' ∧ c2 = '?' then
      match splitBackslashQ rest with
      | [] => [[], []]
      | l => [] :: l
    else
      match splitBackslashQ (c2 :: rest) with
      | [] => [[c1]]
      | h :: t => (c1 :: h) :: t

/-- `splitByQueryParams(path)`: strip one leading and one trailing slash,
split on the escape sequence `\?` (taking the piece before the first
occurrence as the path part and the piece between the first and second
occurrences as the query part), strip a stray trailing `\` from the path
part, and split the path part on `/`, dropping empty first/last segments. -/
def splitByQueryParams (path : String) : List String × String :=
  let path := removeLeadingSlash (removeTrailingSlash path)
  if path = "" then ([], "")
  else
    let parts := (splitBackslashQ path.data).map String.mk
    let pathname0 := parts.headD ""
    let queryString := (parts.drop 1).headD ""
    let pathname := if strEndsWith pathname0 "\\" then strDropLast pathname0 else pathname0
    (dropLastEmpty (dropHeadEmpty (strSplitChar '/' pathname)), queryString)

/-- `parseQueryParamValue`: an empty value is an empty literal, otherwise the
value is parsed with the path-segment grammar. -/
def parseQueryParamValue (value : String) : RAST :=
  if value = "" then .literal "" else parsePathSegment value

/-- `parseQueryParam`: split one `key=value` chunk at its `=` signs; the
source destructures only the first two pieces.  On a chunk with no `=` the
destructured `value` is `undefined` and `parsePathSegment(undefined)` throws
a `TypeError`; modelled as `none` (the `[]` case is unreachable: a split is
never empty). -/
def parseQueryParam (p : String) : Option QP :=
  match strSplitChar '=' p with
  | [] => none
  | [k] => none
  | k :: v :: _ => some (.mk k (parseQueryParamValue v))

/-- Build a `QPList` from parsed query parameters. -/
def qpOfList : List QP → QPList
  | [] => .nil
  | h :: t => .cons h (qpOfList t)

/-- `parseQuery`: strip one leading `?`, split on `&`, wrap in
`QueryParams`; a chunk on which `parseQueryParam` throws makes the whole
parse fail. -/
def parseQuery (previous : RAST) (queryString : String) : Option RAST :=
  let qs := if queryString.data.head? = some '?' then strDropLen queryString 1 else queryString
  let params := strSplitChar '&' qs
  if params = [] then some previous
  else (params.mapM parseQueryParam).map fun qps => .queryParams previous (qpOfList qps)

/-- `parse(path)`: split off the query part, parse and fold the path
segments, and wrap in `QueryParams` only when the query part is not blank;
`none` models the `TypeError` thrown on a malformed query chunk. -/
def parse (path : String) : Option RAST :=
  let (segments, queryString) := splitByQueryParams path
  let allSegments := segments.map parsePathSegment
  let ast := if allSegments.isEmpty then RAST.literal "/" else concatAll allSegments
  if isBlankStr queryString then some ast else parseQuery ast queryString

/-! ### Routes (`src/Route.ts`) -/

/-- `RouteOptions`: the `end` flag (field `endFlag` here; `end` is a Lean
keyword).  `RouteImpl` defaults it to `false`. -/
structure RouteOptions where
  endFlag : Bool
deriving DecidableEq, Repr

/-- A route: an AST plus its options.  The lazily cached derived fields
(path, matcher, interpolator) are pure functions of the AST and are modelled
as plain function applications. -/
structure Route where
  routeAst : RAST
  routeOptions : RouteOptions
deriving DecidableEq, Repr

/-- `Route.make(ast, options)`. -/
def Route.make (ast : RAST) (options : RouteOptions) : Route :=
  ⟨ast, options⟩

/-- Alias for the AST-level `parse`, usable inside the `Route` namespace. -/
def parseAst : String → Option RAST := parse

/-- Alias for the AST-level `concat`, usable inside the `Route` namespace. -/
def concatAst : RAST → RAST → RAST := concat

/-- `Route.parse(path, options)`; `none` propagates a parse failure. -/
def Route.parse (path : String) (options : RouteOptions) : Option Route :=
  (parseAst path).map fun ast => Route.make ast options

/-- `getMatch` / `RouteImpl.match`: compile the AST with the route's `end`
option and run it on the split path. -/
def Route.match (r : Route) (path : String) : Option Rec :=
  let (pathSegments, query) := getPathAndQuery path
  astToMatcher r.routeAst r.routeOptions.endFlag pathSegments query

/-- `getInterpolate` / `RouteImpl.interpolate`: a literal compilation is a
constant function; `none` models the source throwing on a caller-contract
violation. -/
def Route.interpolate (r : Route) (params : Rec) : Option String :=
  match astToInterpolation r.routeAst with
  | .lit v => some v
  | .fnPart f => f params

/-- `dontMergeTags` of `src/Route.ts`. -/
def dontMergeTags : List String := ["WithSchema", "QueryParams", "QueryParam"]

/-- Route-level `concat`: concatenate the ASTs; the result carries the right
route's options unless the right AST's root tag is in `dontMergeTags`, in
which case it carries the left route's options. -/
def Route.concat (left right : Route) : Route :=
  Route.make (concatAst left.routeAst right.routeAst)
    (if dontMergeTags.contains (tagName right.routeAst) then left.routeOptions
     else right.routeOptions)

/-! ### Specificity ordering (`Order`, `guessComplexity`, `sortRoutes`) -/

/-- The number of `:` and `{` characters in a template segment (the counting
loop of `guessComplexity`). -/
def cnt (part : String) : Nat :=
  (part.data.filter fun c => c = ':' ∨ c = '{').length

/-- `guessComplexity(part)`: `-1` for an empty template segment, otherwise
the number of `:` and `{` characters in it. -/
def guessComplexity (part : String) : Int :=
  if part = "" then -1 else (cnt part : Int)

/-- The comparator loop of `Order`: walk the two template-part lists,
skipping positions with equal text or equal complexity; at the first
decisive position a plain-literal side (complexity `0`) sorts first,
otherwise the larger complexity sorts later; if every compared position
ties, the longer template sorts first. -/
def cmpParts : List String → List String → Int
  | a :: as, b :: bs =>
    if a = b then cmpParts as bs
    else
      let aComplexity := guessComplexity a
      let bComplexity := guessComplexity b
      if aComplexity = bComplexity then cmpParts as bs
      else if aComplexity = 0 then -1
      else if bComplexity = 0 then 1
      else if bComplexity > aComplexity then -1
      else 1
  | as, bs =>
    if as.length = bs.length then 0
    else if as.length > bs.length then -1
    else 1

/-- The route path used by the comparator (`a.path`). -/
def Route.path (r : Route) : String :=
  toPath r.routeAst

/-- `Order.make((a, b) => …)`: compare two routes by their path templates
split on `/`. -/
def cmpRoute (a b : Route) : Int :=
  cmpParts (strSplitChar '/' a.path) (strSplitChar '/' b.path)

/-- The non-strict order induced by the comparator (`compare(a, b) <= 0`). -/
def routeLE (a b : Route) : Prop := cmpRoute a b ≤ 0

instance : DecidableRel routeLE := fun _ _ => Int.decLe _ _

/-- `sortRoutes`: a stable sort by the comparator.  Effect's `sortBy` is a
stable sort (ECMAScript `Array.prototype.sort` is required to be stable);
modelled as Mathlib's stable `insertionSort`. -/
def sortRoutes (routes : List Route) : List Route :=
  routes.insertionSort routeLE

/-! ### Proof-support definitions -/

/-- All ways to insert an element into a list. -/
def insertEverywhere {α : Type} (a : α) : List α → List (List α)
  | [] => [[a]]
  | x :: xs => (a :: x :: xs) :: (insertEverywhere a xs).map (x :: ·)

/-- All permutations of a list (a structurally recursive enumeration). -/
def permsOf {α : Type} : List α → List (List α)
  | [] => [[]]
  | x :: xs => (permsOf xs).flatMap (insertEverywhere x)

/-- Is the root node a `QueryParams` node? -/
def isQueryParamsNode : RAST → Bool
  | .queryParams _ _ => true
  | _ => false

/-- The specificity rank of one template segment: the comparator of `Order`
behaves exactly like comparing `rank`s with the usual `Nat` order (a plain
literal is strongest, then an empty segment, then growing complexity). -/
def rank (part : String) : Nat :=
  if part = "" then 1
  else if cnt part = 0 then 0 else cnt part + 1

/-- Lexicographic comparison of rank sequences, where (as in `Order`) a
template whose compared positions all tie but which has more segments sorts
first. -/
def lexO : List Nat → List Nat → Ordering
  | [], [] => .eq
  | [], _ :: _ => .gt
  | _ :: _, [] => .lt
  | a :: as, b :: bs =>
    if a < b then .lt else if b < a then .gt else lexO as bs

/-- An `Ordering` as the sign `Int` returned by the comparator. -/
def ordInt : Ordering → Int
  | .lt => -1
  | .eq => 0
  | .gt => 1

/-- A path segment or parameter value that survives the `new URL`
normalisation unchanged: non-empty, not a dot segment (`.` or `..`), and
containing no separator (`/` or `\`), no `%`, and no character of the path
percent-encode set (which excludes C0 controls, space, DEL and non-ASCII,
`"`, `<`, `>`, backtick, `#`, `?` and braces). -/
def safeSeg (s : String) : Bool :=
  s ≠ "" && s ≠ "." && s ≠ ".." &&
    s.data.all fun c => !inPathEncodeSet c && !isSlashChar c && c ≠ '%'

/-- An AST built only from `Literal`, `Param` and `Concat` nodes, whose
literal texts are all `safeSeg`. -/
def plainSafe : RAST → Bool
  | .literal s => safeSeg s
  | .param _ => true
  | .concatNode l r => plainSafe l && plainSafe r
  | _ => false

/-- The leaves of a `Literal`/`Param`/`Concat` AST, in order. -/
def plainSegs : RAST → List RAST
  | .concatNode l r => plainSegs l ++ plainSegs r
  | t => [t]

/-- Render one plain leaf under a parameter valuation. -/
def renderSeg (σ : String → String) : RAST → String
  | .literal s => s
  | .param n => σ n
  | _ => ""

/-- The declared parameter names of a `Literal`/`Param`/`Concat` AST, in
order. -/
def paramNames : RAST → List String
  | .param n => [n]
  | .concatNode l r => paramNames l ++ paramNames r
  | _ => []

/-- The parameter record assigning `σ n` to each declared name `n`, built in
declaration order (the map `P` of the round-trip property). -/
def buildRec (names : List String) (σ : String → String) : Rec :=
  names.foldl (fun m n => setKey m n (.str (σ n))) []

/-- The query-parameter list at the root of an AST (`.nil` for a
non-`QueryParams` root). -/
def queryParamsOf : RAST → QPList
  | .queryParams _ ps => ps
  | _ => .nil

/-- The `previous` node at the root of a `QueryParams` AST (the node itself
otherwise). -/
def previousOf : RAST → RAST
  | .queryParams prev _ => prev
  | t => t

/-! ## Supporting lemmas -/

set_option maxRecDepth 10000

theorem qpToList_append (a b : QPList) : qpToList (qpAppend a b) = qpToList a ++ qpToList b := by
  match a with
  | .nil => rfl
  | .cons (.mk k v) t => simp [qpAppend, qpToList, qpToList_append t b]

theorem qpHasKey_eq_any (ps : QPList) (k : String) :
    qpHasKey ps k = (qpToList ps).any fun y => y.1 = k := by
  match ps with
  | .nil => rfl
  | .cons (.mk k' v) t => simp [qpHasKey, qpToList, QP.key, qpHasKey_eq_any t k]

theorem qpToList_filterNotIn (a b : QPList) :
    qpToList (qpFilterNotIn a b)
      = (qpToList a).filter fun x => ¬(qpToList b).any fun y => y.1 = x.1 := by
  match a with
  | .nil => rfl
  | .cons (.mk k v) t =>
    by_cases hk : qpHasKey b k = true
    · rw [qpHasKey_eq_any] at hk
      simp [qpFilterNotIn, QP.key, qpHasKey_eq_any, hk, qpToList, qpToList_filterNotIn t b]
    · rw [qpHasKey_eq_any] at hk
      simp [qpFilterNotIn, QP.key, qpHasKey_eq_any, hk, qpToList, qpToList_filterNotIn t b]

theorem qpLookup_filterNotIn_none (a b : QPList) (k : String) (h : qpHasKey b k = true) :
    qpLookup (qpFilterNotIn a b) k = none := by
  match a with
  | .nil => rfl
  | .cons hd t =>
    by_cases hk : qpHasKey b hd.key = true
    · simp [qpFilterNotIn, hk, qpLookup_filterNotIn_none t b k h]
    · have hne : hd.key ≠ k := fun he => hk (he ▸ h)
      simp [qpFilterNotIn, hk, qpLookup, hne, qpLookup_filterNotIn_none t b k h]

theorem qpLookup_append_right (a b : QPList) (k : String) (h : qpLookup a k = none) :
    qpLookup (qpAppend a b) k = qpLookup b k := by
  match a with
  | .nil => rfl
  | .cons hd t =>
    by_cases hk : hd.key = k
    · simp [qpLookup, hk] at h
    · simp only [qpAppend, qpLookup, if_neg hk]
      exact qpLookup_append_right t b k (by simpa [qpLookup, hk] using h)

theorem removeTrailingSlash_eq_empty_iff (s : String) :
    removeTrailingSlash s = "" ↔ s = "" ∨ s = "/" := by
  obtain ⟨l⟩ := s
  induction l using List.reverseRecOn with
  | nil => simp [removeTrailingSlash]
  | append_singleton xs x _ =>
    simp only [removeTrailingSlash, List.reverse_append, List.reverse_cons, List.reverse_nil,
      List.nil_append, List.singleton_append]
    by_cases hx : x = '/'
    · subst hx
      simp [String.ext_iff]
    · simp only [if_neg hx]
      simp [String.ext_iff, hx]
      intro h
      have hlen := congrArg List.length h
      simp at hlen
      subst hlen
      simp at h
      exact hx h

theorem isEmptyLiteral_iff (t : RAST) :
    isEmptyLiteral t = true ↔ t = .literal "" ∨ t = .literal "/" := by
  cases t <;> simp [isEmptyLiteral]
  next s =>
    rw [show (removeTrailingSlash s = "" : Prop) ↔ _ from removeTrailingSlash_eq_empty_iff s]

theorem splitCharList_ne_nil (c : Char) (l : List Char) : splitCharList c l ≠ [] := by
  match l with
  | [] => simp [splitCharList]
  | x :: xs =>
    simp only [splitCharList]
    split <;> split <;> simp

theorem strSplitChar_ne_nil (c : Char) (s : String) : strSplitChar c s ≠ [] := by
  unfold strSplitChar
  simp [splitCharList_ne_nil]

theorem notQP_parseParamRev (l : List Char) : isQueryParamsNode (parseParamRev l) = false := by
  unfold parseParamRev
  split <;> rfl

theorem notQP_parsePathPart (p : String) : isQueryParamsNode (parsePathPart p) = false := by
  unfold parsePathPart
  split_ifs
  · unfold parsePrefix
    split <;> rfl
  · rfl
  · exact notQP_parseParamRev _
  · rfl

theorem notQP_foldl_concatNode (t : List RAST) (h : RAST) (hh : isQueryParamsNode h = false) :
    isQueryParamsNode (t.foldl .concatNode h) = false := by
  induction t generalizing h with
  | nil => exact hh
  | cons x xs ih => exact ih _ rfl

theorem notQP_concatAll (parts : List RAST) (hp : ∀ p ∈ parts, isQueryParamsNode p = false) :
    isQueryParamsNode (concatAll parts) = false := by
  cases parts with
  | nil => rfl
  | cons h t => exact notQP_foldl_concatNode t h (hp h (by simp))

theorem notQP_parsePathSegment (seg : String) :
    isQueryParamsNode (parsePathSegment seg) = false := by
  unfold parsePathSegment
  generalize hg : (splitByPrefixes seg).map parsePathPart = ps
  have hp : ∀ p ∈ ps, isQueryParamsNode p = false := by
    rw [← hg]
    intro p hmem
    obtain ⟨x, _, rfl⟩ := List.mem_map.mp hmem
    exact notQP_parsePathPart x
  match ps with
  | [] => rfl
  | [p] => exact hp p (by simp)
  | a :: b :: rest => exact notQP_concatAll _ hp

theorem isQP_parseQuery (prev : RAST) (qs : String) (ast : RAST)
    (h : parseQuery prev qs = some ast) : isQueryParamsNode ast = true := by
  unfold parseQuery at h
  rw [if_neg (strSplitChar_ne_nil '&' _)] at h
  obtain ⟨l, _, hl⟩ := Option.map_eq_some'.mp h
  exact hl ▸ rfl

/-! ## Claim theorems -/

/-- C2: for the route of pattern `/articles/:slug` with `end=true`,
`match("/articles/123")` returns `Some {slug: "123"}` and
`match("/articles/123/comments")` returns `None`; with `end=false`,
`match("/articles/123/comments")` returns `Some {slug: "123"}` (the trailing
remainder is ignored) and `match("/articles/123")` still returns
`Some {slug: "123"}`. -/
theorem c2_articles_slug_end_matching :
    (Route.parse "/articles/:slug" ⟨true⟩).map (fun r => Route.match r "/articles/123")
      = some (some [("slug", .str "123")]) ∧
    (Route.parse "/articles/:slug" ⟨true⟩).map (fun r => Route.match r "/articles/123/comments")
      = some none ∧
    (Route.parse "/articles/:slug" ⟨false⟩).map (fun r => Route.match r "/articles/123/comments")
      = some (some [("slug", .str "123")]) ∧
    (Route.parse "/articles/:slug" ⟨false⟩).map (fun r => Route.match r "/articles/123")
      = some (some [("slug", .str "123")]) := by
  refine ⟨by decide, by decide, by decide, by decide⟩

/-- C3 counterexample: the repetition capture does not consume the cursor:
the group matcher compiled from `OneOrMore(Param "rest")` run on the cursor
`["a", "b"]` captures the whole list but leaves both segments in the cursor,
and the full matcher with `end=true` therefore fails outright — contradicting
the claim that after the repetition group runs no path segments remain
unconsumed. -/
theorem c3_repetition_consumes_counterexample :
    (astSegmentToMatcher [.oneOrMore (.param "rest")] 0).1 (["a", "b"], [])
      = some ([("rest", .list ["a", "b"])], (["a", "b"], [])) ∧
    (["a", "b"] : List String) ≠ [] ∧
    astToMatcher (.oneOrMore (.param "rest")) true ["a", "b"] [] = none := by
  refine ⟨by decide, by decide, by decide⟩

/-- C3 amended: when the compiled matcher reaches a repetition capture
(`OneOrMore` or `ZeroOrMore`, i.e. `isMultiple` set), the capture is greedy
in value: it captures every remaining path segment from the cursor as a
single list value, but removes nothing — the cursor (and query) state is
left unchanged. -/
theorem c3_repetition_captures_all_without_consuming (n : String) (ctx : Nat)
    (segs : List String) (q : Query) (hne : segs ≠ []) :
    (simpleAstToMatcher (.oneOrMore (.param n)) ctx false false).1 (segs, q)
      = some ([(n, .list segs)], (segs, q)) ∧
    (simpleAstToMatcher (.zeroOrMore (.param n)) ctx false false).1 (segs, q)
      = some ([(n, .list segs)], (segs, q)) := by
  constructor
  · simp [simpleAstToMatcher, getParamByKey, hne]
  · simp [simpleAstToMatcher, getParamByKey]

/-- Witness for C3 amended at `n = "rest"`, cursor `["a", "b"]`. -/
theorem c3_repetition_captures_all_without_consuming_witness :
    (["a", "b"] : List String) ≠ [] ∧
    (simpleAstToMatcher (.oneOrMore (.param "rest")) 0 false false).1 (["a", "b"], [])
      = some ([("rest", .list ["a", "b"])], (["a", "b"], [])) :=
  ⟨by decide,
   (c3_repetition_captures_all_without_consuming "rest" 0 ["a", "b"] [] (by decide)).1⟩

/-- C4: for two ASTs whose roots are both `QueryParams`, `concat(l, r)` is a
`QueryParams` node whose query-param list is: the elements of `l.params`
whose key does not occur in `r.params`, in their original relative order,
followed by all of `r.params` in `r`'s order; in particular, for any key
declared in both, the resulting definition for that key is `r`'s. -/
theorem c4_concat_query_params_right_wins (p1 p2 : RAST) (ps1 ps2 : QPList) :
    isQueryParamsNode (concat (.queryParams p1 ps1) (.queryParams p2 ps2)) = true ∧
    qpToList (queryParamsOf (concat (.queryParams p1 ps1) (.queryParams p2 ps2)))
      = ((qpToList ps1).filter fun x => ¬(qpToList ps2).any fun y => y.1 = x.1)
          ++ qpToList ps2 ∧
    ∀ k, qpHasKey ps1 k = true → qpHasKey ps2 k = true →
      qpLookup (queryParamsOf (concat (.queryParams p1 ps1) (.queryParams p2 ps2))) k
        = qpLookup ps2 k := by
  refine ⟨rfl, ?_, ?_⟩
  · show qpToList (qpAppend (qpFilterNotIn ps1 ps2) ps2) = _
    rw [qpToList_append, qpToList_filterNotIn]
  · intro k _ h2
    show qpLookup (qpAppend (qpFilterNotIn ps1 ps2) ps2) k = _
    rw [qpLookup_append_right _ _ _ (qpLookup_filterNotIn_none ps1 ps2 k h2)]

/-- Witness for C4 at two one-element query blocks sharing the key `k`: the
resulting definition for `k` is the right-hand one. -/
theorem c4_concat_query_params_right_wins_witness :
    qpHasKey (.cons (.mk "k" (.literal "a")) .nil) "k" = true ∧
    qpHasKey (.cons (.mk "k" (.literal "b")) .nil) "k" = true ∧
    qpLookup (queryParamsOf (concat
        (.queryParams (.literal "x") (.cons (.mk "k" (.literal "a")) .nil))
        (.queryParams (.literal "y") (.cons (.mk "k" (.literal "b")) .nil)))) "k"
      = some (.literal "b") := by
  refine ⟨by decide, by decide, ?_⟩
  have h := (c4_concat_query_params_right_wins (.literal "x") (.literal "y")
      (.cons (.mk "k" (.literal "a")) .nil) (.cons (.mk "k" (.literal "b")) .nil)).2.2
      "k" (by decide) (by decide)
  rw [h]
  decide

/-- C5 counterexample: `parse` does not split the pattern on `?`: the raw
pattern `/a?b` parses to the single literal `a?b` (no `QueryParams` root,
although the claim's reading would give query part `b`), and `/a\?` — whose
query part is present but empty — parses to the literal `a` with no
`QueryParams` root either. -/
theorem c5_parse_split_counterexample :
    parse "/a?b" = some (.literal "a?b") ∧
    parse "/a\\?" = some (.literal "a") ∧
    (parse "/a?b").map isQueryParamsNode = some false ∧
    (parse "/a\\?").map isQueryParamsNode = some false := by
  refine ⟨by decide, by decide, by decide, by decide⟩

/-- C5 amended: `parse` splits the raw pattern on the two-character escape
sequence `\?` (the DSL's query marker): the path part is the text before the
first occurrence and the query part is the text between the first and second
occurrences (text after a second occurrence is discarded).  Whenever `parse`
succeeds, the root of the resulting AST is a `QueryParams` node if and only
if the query part is non-blank (an empty or whitespace-only query part is
not wrapped); `parse` fails only on a non-blank query part (it throws — here
`none` — when some `&`-chunk of it lacks an `=`, such as `/a\?b`). -/
theorem c5_parse_query_split :
    (∀ s ast, parse s = some ast →
      (isQueryParamsNode ast = true ↔ isBlankStr (splitByQueryParams s).2 = false)) ∧
    (∀ s, parse s = none → isBlankStr (splitByQueryParams s).2 = false) ∧
    splitByQueryParams "/a\\?b\\?c" = (["a"], "b") ∧
    splitByQueryParams "/a?b" = (["a?b"], "") ∧
    splitByQueryParams "/a\\?" = (["a"], "") ∧
    parse "/a\\?b" = none := by
  refine ⟨?_, ?_, by decide, by decide, by decide, by decide⟩
  · intro s ast h
    rcases hpq : splitByQueryParams s with ⟨segments, queryString⟩
    unfold parse at h
    rw [hpq] at h
    simp only [] at h
    have hast : isQueryParamsNode
        (if (segments.map parsePathSegment).isEmpty = true then RAST.literal "/"
         else concatAll (segments.map parsePathSegment)) = false := by
      split
      · rfl
      · refine notQP_concatAll _ ?_
        intro p hmem
        obtain ⟨x, _, rfl⟩ := List.mem_map.mp hmem
        exact notQP_parsePathSegment x
    by_cases hb : isBlankStr queryString = true
    · rw [if_pos hb] at h
      obtain rfl := Option.some_injective _ h.symm
      rw [hast]
      simp [hb]
    · rw [if_neg hb] at h
      rw [isQP_parseQuery _ _ _ h]
      simp [Bool.not_eq_true] at hb
      simp [hb]
  · intro s h
    rcases hpq : splitByQueryParams s with ⟨segments, queryString⟩
    unfold parse at h
    rw [hpq] at h
    simp only [] at h
    by_cases hb : isBlankStr queryString = true
    · rw [if_pos hb] at h
      exact absurd h (Option.some_ne_none _)
    · simpa [Bool.not_eq_true] using hb

/-- Witness for C5 amended at the pattern `/x\?k=v`: `parse` succeeds with a
`QueryParams` root, and the iff instantiates to a true biconditional. -/
theorem c5_parse_query_split_witness :
    parse "/x\\?k=v"
      = some (.queryParams (.literal "x") (.cons (.mk "k" (.literal "v")) .nil)) ∧
    (isQueryParamsNode
        (.queryParams (.literal "x") (.cons (.mk "k" (.literal "v")) .nil)) = true
      ↔ isBlankStr (splitByQueryParams "/x\\?k=v").2 = false) :=
  ⟨by decide,
   c5_parse_query_split.1 "/x\\?k=v"
     (.queryParams (.literal "x") (.cons (.mk "k" (.literal "v")) .nil)) (by decide)⟩

/-- C6 counterexample: with the plain-`?` pattern of the claim, `parse` does
not produce a query block at all — the whole pattern becomes one literal —
so `match("/search?q=test")` is `None`, not `Some {query: "test"}`. -/
theorem c6_search_query_counterexample :
    (Route.parse "/search?q=:query&page=:page?" ⟨false⟩).map
        (fun r => Route.match r "/search?q=test") = some none ∧
    parse "/search?q=:query&page=:page?" = some (.literal "search?q=:query&page=:page?") := by
  refine ⟨by decide, by decide⟩

/-- C6 amended: for the route of the escaped pattern
`/search\?q=:query&page=:page?` (the DSL's query marker is the escape
sequence `\?`): `match("/search?q=test")` returns `Some {query: "test"}`;
`match("/search")` returns `None` (the required query key `q` is missing);
`match("/search?q=test&page=2")` returns
`Some {query: "test", page: "2"}`. -/
theorem c6_search_query_matching :
    (Route.parse "/search\\?q=:query&page=:page?" ⟨false⟩).map
        (fun r => Route.match r "/search?q=test")
      = some (some [("query", .str "test")]) ∧
    (Route.parse "/search\\?q=:query&page=:page?" ⟨false⟩).map
        (fun r => Route.match r "/search")
      = some none ∧
    (Route.parse "/search\\?q=:query&page=:page?" ⟨false⟩).map
        (fun r => Route.match r "/search?q=test&page=2")
      = some (some [("query", .str "test"), ("page", .str "2")]) := by
  refine ⟨by decide, by decide, by decide⟩

/-- C7 counterexample: in the branch of `concat` where only the right
operand is a `QueryParams` node, the emptiness test is applied to
`right.previous`, not to the left operand: concatenating the empty literal
`/` with `QueryParams(Literal "a", [])` yields
`QueryParams(Concat(Literal "/", Literal "a"), [])`, not the
`QueryParams(Literal "a", [])` the claim's `merge(left, right.previous)`
would produce. -/
theorem c7_merge_direction_counterexample :
    concat (.literal "/") (.queryParams (.literal "a") .nil)
        = .queryParams (.concatNode (.literal "/") (.literal "a")) .nil ∧
    concat (.literal "/") (.queryParams (.literal "a") .nil)
        ≠ .queryParams (.literal "a") .nil := by
  refine ⟨by decide, by decide⟩

/-- C7 amended: only the branch of `concat` in which the left operand is the
`QueryParams` node follows `merge(a, b)` with the emptiness test on the
first argument; the right-`QueryParams` branch and the both-`QueryParams`
branch test the second piece (`right.previous`) instead, keeping the left
piece unchanged when `right.previous` is an empty literal and producing
`Concat(left, right.previous)` otherwise.  An "empty literal" is a `Literal`
of the empty string or of `/`. -/
theorem c7_concat_merge_branches :
    (∀ (lp : RAST) (lps : QPList) (r : RAST), isQueryParamsNode r = false →
      concat (.queryParams lp lps) r
        = .queryParams (if isEmptyLiteral lp then r else .concatNode lp r) lps) ∧
    (∀ (l rp : RAST) (rps : QPList), isQueryParamsNode l = false →
      concat l (.queryParams rp rps)
        = .queryParams (if isEmptyLiteral rp then l else .concatNode l rp) rps) ∧
    (∀ (lp rp : RAST) (lps rps : QPList),
      previousOf (concat (.queryParams lp lps) (.queryParams rp rps))
        = if isEmptyLiteral rp then lp else .concatNode lp rp) ∧
    (∀ t, isEmptyLiteral t = true ↔ t = .literal "" ∨ t = .literal "/") := by
  refine ⟨?_, ?_, ?_, isEmptyLiteral_iff⟩
  · intro lp lps r h
    cases r <;> first | rfl | simp [isQueryParamsNode] at h
  · intro l rp rps h
    cases l <;> first | rfl | simp [isQueryParamsNode] at h
  · intro lp rp lps rps
    rfl

/-- Witness for C7 amended: a non-empty left literal and a non-empty
`right.previous` produce the `Concat` form. -/
theorem c7_concat_merge_branches_witness :
    isQueryParamsNode (.literal "x") = false ∧
    concat (.literal "x") (.queryParams (.literal "a") .nil)
      = .queryParams (.concatNode (.literal "x") (.literal "a")) .nil := by
  refine ⟨by decide, ?_⟩
  have h := c7_concat_merge_branches.2.1 (.literal "x") (.literal "a") .nil (by decide)
  exact h.trans (by decide)

/-- C8: `sortRoutes` applied to the four routes parsed from the path
templates `/users`, `/users/:id`, `/users/settings`, `/users/:id/posts`
(the four parses succeed with the listed ASTs) — in any input order —
yields exactly the order `/users/settings`, `/users/:id/posts`,
`/users/:id`, `/users`. -/
theorem c8_sort_users_routes :
    Route.parse "/users" ⟨false⟩ = some (Route.make (.literal "users") ⟨false⟩) ∧
    Route.parse "/users/:id" ⟨false⟩
      = some (Route.make (.concatNode (.literal "users") (.param "id")) ⟨false⟩) ∧
    Route.parse "/users/settings" ⟨false⟩
      = some (Route.make (.concatNode (.literal "users") (.literal "settings")) ⟨false⟩) ∧
    Route.parse "/users/:id/posts" ⟨false⟩
      = some (Route.make
          (.concatNode (.concatNode (.literal "users") (.param "id")) (.literal "posts"))
          ⟨false⟩) ∧
    ((permsOf
        [Route.make (.literal "users") ⟨false⟩,
         Route.make (.concatNode (.literal "users") (.param "id")) ⟨false⟩,
         Route.make (.concatNode (.literal "users") (.literal "settings")) ⟨false⟩,
         Route.make (.concatNode (.concatNode (.literal "users") (.param "id"))
           (.literal "posts")) ⟨false⟩]).all
      fun xs =>
        sortRoutes xs =
          [Route.make (.concatNode (.literal "users") (.literal "settings")) ⟨false⟩,
           Route.make (.concatNode (.concatNode (.literal "users") (.param "id"))
             (.literal "posts")) ⟨false⟩,
           Route.make (.concatNode (.literal "users") (.param "id")) ⟨false⟩,
           Route.make (.literal "users") ⟨false⟩]) = true := by
  refine ⟨by decide, by decide, by decide, by decide, by decide⟩

/-- C10 (implicit): for any two routes `l` and `r`, `concat(l, r)` carries
`r`'s `RouteOptions` (in particular `r`'s `end` flag), unless the root tag of
`r`'s AST is `WithSchema`, `QueryParams` or `QueryParam`, in which case it
carries `l`'s `RouteOptions`; `l`'s own `end` flag is otherwise discarded. -/
theorem c10_concat_carries_right_options (l r : Route) :
    (Route.concat l r).routeOptions =
      (if tagName r.routeAst = "WithSchema" ∨ tagName r.routeAst = "QueryParams"
          ∨ tagName r.routeAst = "QueryParam"
       then l.routeOptions else r.routeOptions) ∧
    (Route.concat l r).routeAst = concat l.routeAst r.routeAst := by
  obtain ⟨rast, ropts⟩ := r
  refine ⟨?_, rfl⟩
  cases rast <;> simp [Route.concat, Route.make, tagName, dontMergeTags, List.contains]

theorem rank_eq_iff (a b : String) :
    rank a = rank b ↔ guessComplexity a = guessComplexity b := by
  unfold rank guessComplexity
  by_cases ha : a = ""
  · by_cases hb : b = ""
    · rw [if_pos ha, if_pos hb, if_pos ha, if_pos hb]
      exact ⟨fun _ => rfl, fun _ => rfl⟩
    · rw [if_pos ha, if_neg hb, if_pos ha, if_neg hb]
      constructor
      · intro h
        split_ifs at h <;> omega
      · intro h
        omega
  · by_cases hb : b = ""
    · rw [if_neg ha, if_pos hb, if_neg ha, if_pos hb]
      constructor
      · intro h
        split_ifs at h <;> omega
      · intro h
        omega
    · rw [if_neg ha, if_neg hb, if_neg ha, if_neg hb]
      constructor
      · intro h
        split_ifs at h <;> omega
      · intro h
        have hc : cnt a = cnt b := by omega
        rw [hc]

theorem cmp_decision (a b : String) (hgc : guessComplexity a ≠ guessComplexity b) :
    (if guessComplexity a = 0 then (-1 : Int)
     else if guessComplexity b = 0 then 1
     else if guessComplexity b > guessComplexity a then -1 else 1)
    = if rank a < rank b then -1 else 1 := by
  unfold rank guessComplexity at *
  by_cases ha : a = ""
  · by_cases hb : b = ""
    · rw [if_pos ha, if_pos hb] at hgc
      exact absurd rfl hgc
    · rw [if_pos ha, if_neg hb] at hgc ⊢
      rw [if_pos ha, if_neg hb]
      split_ifs <;> first | omega | (exfalso; assumption)
  · by_cases hb : b = ""
    · rw [if_neg ha, if_pos hb] at hgc ⊢
      rw [if_neg ha, if_pos hb]
      split_ifs <;> first | omega | (exfalso; assumption)
    · rw [if_neg ha, if_neg hb] at hgc ⊢
      rw [if_neg ha, if_neg hb]
      split_ifs <;> first | omega | (exfalso; assumption)

theorem cmpParts_eq_lexO : ∀ (as bs : List String),
    cmpParts as bs = ordInt (lexO (as.map rank) (bs.map rank))
  | [], [] => by simp [cmpParts, lexO, ordInt]
  | [], _ :: _ => by simp [cmpParts, lexO, ordInt]
  | _ :: _, [] => by simp [cmpParts, lexO, ordInt]
  | a :: as, b :: bs => by
    simp only [cmpParts, List.map_cons, lexO]
    by_cases hab : a = b
    · subst hab
      simp [cmpParts_eq_lexO as bs]
    · rw [if_neg hab]
      by_cases hgc : guessComplexity a = guessComplexity b
      · have hr : rank a = rank b := (rank_eq_iff a b).mpr hgc
        simp [hgc, hr, cmpParts_eq_lexO as bs]
      · have hr : rank a ≠ rank b := fun h => hgc ((rank_eq_iff a b).mp h)
        rw [if_neg hgc, cmp_decision a b hgc]
        rcases Nat.lt_trichotomy (rank a) (rank b) with hlt | heq | hgt
        · rw [if_pos hlt, if_pos hlt]
          rfl
        · exact absurd heq hr
        · rw [if_neg (Nat.lt_asymm hgt), if_neg (Nat.lt_asymm hgt), if_pos hgt]
          rfl

theorem lexO_self : ∀ (x : List Nat), lexO x x = .eq
  | [] => rfl
  | a :: as => by simp [lexO, lexO_self as]

theorem lexO_total : ∀ (x y : List Nat), lexO x y ≠ .gt ∨ lexO y x ≠ .gt
  | [], [] => by simp [lexO]
  | [], _ :: _ => by simp [lexO]
  | _ :: _, [] => by simp [lexO]
  | a :: as, b :: bs => by
    simp only [lexO]
    rcases Nat.lt_trichotomy a b with h | h | h
    · left
      rw [if_pos h]
      simp
    · subst h
      simpa [lt_irrefl] using lexO_total as bs
    · right
      rw [if_pos h]
      simp

theorem lexO_trans : ∀ (x y z : List Nat),
    lexO x y ≠ .gt → lexO y z ≠ .gt → lexO x z ≠ .gt
  | [], y, z => fun h1 h2 => by
    cases y with
    | nil =>
      cases z with
      | nil => simp [lexO]
      | cons c cs => exact h2
    | cons b bs => exact absurd rfl h1
  | _ :: _, _, [] => fun _ _ => by simp [lexO]
  | a :: as, y, c :: cs => fun h1 h2 => by
    cases y with
    | nil => exact absurd rfl h2
    | cons b bs =>
      simp only [lexO] at h1 h2 ⊢
      rcases Nat.lt_trichotomy a b with hab | hab | hab
      · rcases Nat.lt_trichotomy b c with hbc | hbc | hbc
        · rw [if_pos (Nat.lt_trans hab hbc)]
          simp
        · subst hbc
          rw [if_pos hab]
          simp
        · rw [if_pos hbc, if_neg (Nat.lt_asymm hbc)] at h2
          exact absurd rfl h2
      · subst hab
        rcases Nat.lt_trichotomy a c with hac | hac | hac
        · rw [if_pos hac]
          simp
        · subst hac
          rw [if_neg (lt_irrefl a), if_neg (lt_irrefl a)] at h1 h2 ⊢
          exact lexO_trans as bs cs h1 h2
        · rw [if_neg (Nat.lt_asymm hac), if_pos hac] at h2
          exact absurd rfl h2
      · rw [if_neg (Nat.lt_asymm hab), if_pos hab] at h1
        exact absurd rfl h1

theorem ordInt_le_zero_iff (o : Ordering) : ordInt o ≤ 0 ↔ o ≠ .gt := by
  cases o <;> simp [ordInt]

theorem routeLE_iff (a b : Route) :
    routeLE a b ↔
      lexO ((strSplitChar '/' a.path).map rank) ((strSplitChar '/' b.path).map rank) ≠ .gt := by
  unfold routeLE cmpRoute
  rw [cmpParts_eq_lexO, ordInt_le_zero_iff]

instance : IsTrans Route routeLE :=
  ⟨fun a b c h1 h2 =>
    (routeLE_iff a c).mpr (lexO_trans _ _ _ ((routeLE_iff a b).mp h1) ((routeLE_iff b c).mp h2))⟩

instance : IsTotal Route routeLE :=
  ⟨fun a b => by
    rcases lexO_total ((strSplitChar '/' a.path).map rank) ((strSplitChar '/' b.path).map rank)
      with h | h
    · exact Or.inl ((routeLE_iff a b).mpr h)
    · exact Or.inr ((routeLE_iff b a).mpr h)⟩

/-- C9: `sortRoutes` is idempotent: for every finite list of routes `xs`,
`sortRoutes (sortRoutes xs) = sortRoutes xs` (the underlying sort is stable,
so ties preserve input order; the comparator induces a total preorder, so a
sorted list re-sorts to itself). -/
theorem c9_sortRoutes_idempotent (xs : List Route) :
    sortRoutes (sortRoutes xs) = sortRoutes xs :=
  List.Sorted.insertionSort_eq (List.sorted_insertionSort routeLE xs)

theorem recLookup_cons (a : String) (b : Val) (m : Rec) (j : String) :
    recLookup ((a, b) :: m) j = if a = j then some b else recLookup m j := by
  unfold recLookup
  rw [List.find?_cons]
  by_cases h : a = j <;> simp [h]

theorem setKey_cons_ne (hd : String × Val) (tl : Rec) (k : String) (v : Val)
    (h : ¬hd.1 = k) : setKey (hd :: tl) k v = hd :: setKey tl k v := by
  unfold setKey
  by_cases ha : tl.any (fun p => p.1 = k) = true <;> simp [ha, h]

theorem setKey_cons_eq (hd : String × Val) (tl : Rec) (k : String) (v : Val)
    (h : hd.1 = k) :
    setKey (hd :: tl) k v = (k, v) :: tl.map fun p => if p.1 = k then (k, v) else p := by
  unfold setKey
  simp [h]

theorem recLookup_map_ne (m : Rec) (k : String) (v : Val) (j : String) (hj : ¬j = k) :
    recLookup (m.map fun p => if p.1 = k then (k, v) else p) j = recLookup m j := by
  induction m with
  | nil => rfl
  | cons hd tl ih =>
    by_cases hh : hd.1 = k
    · obtain ⟨a, b⟩ := hd
      simp only [List.map_cons, if_pos hh]
      rw [recLookup_cons, recLookup_cons]
      simp only at hh
      rw [if_neg (fun he => hj he.symm), if_neg (by rw [hh]; exact fun he => hj he.symm)]
      exact ih
    · obtain ⟨a, b⟩ := hd
      simp only [List.map_cons, if_neg hh]
      rw [recLookup_cons, recLookup_cons]
      by_cases haj : a = j
      · simp [haj]
      · simp [haj, ih]

theorem recLookup_setKey (m : Rec) (k : String) (v : Val) (j : String) :
    recLookup (setKey m k v) j = if j = k then some v else recLookup m j := by
  induction m with
  | nil =>
    show recLookup (setKey [] k v) j = _
    unfold setKey
    simp only [List.any_nil, List.nil_append, Bool.false_eq_true, if_false]
    rw [recLookup_cons]
    by_cases h : j = k
    · rw [if_pos h, if_pos (h.symm)]
    · rw [if_neg h, if_neg (fun he => h he.symm)]
  | cons hd tl ih =>
    by_cases hh : hd.1 = k
    · rw [setKey_cons_eq hd tl k v hh]
      rw [recLookup_cons]
      obtain ⟨a, b⟩ := hd
      simp only at hh
      by_cases hj : j = k
      · rw [if_pos hj.symm, if_pos hj]
      · rw [if_neg (fun he => hj he.symm), if_neg hj]
        rw [recLookup_map_ne tl k v j hj]
        rw [recLookup_cons, if_neg (by rw [hh]; exact fun he => hj he.symm)]
    · rw [setKey_cons_ne hd tl k v hh]
      obtain ⟨a, b⟩ := hd
      rw [recLookup_cons, recLookup_cons]
      simp only at hh
      by_cases haj : a = j
      · rw [if_pos haj, if_pos haj]
        rw [if_neg (fun he : j = k => hh (haj ▸ he))]
      · rw [if_neg haj, if_neg haj, ih]

theorem recLookup_foldl_setKey (names : List String) (σ : String → String) (acc : Rec)
    (j : String) :
    recLookup (names.foldl (fun m n => setKey m n (.str (σ n))) acc) j
      = if j ∈ names then some (.str (σ j)) else recLookup acc j := by
  induction names generalizing acc with
  | nil => simp
  | cons n ns ih =>
    rw [List.foldl_cons, ih]
    by_cases hj : j ∈ ns
    · simp [hj]
    · simp only [hj, if_false]
      rw [recLookup_setKey]
      by_cases hjn : j = n
      · simp [hjn]
      · simp [hjn, List.mem_cons, hj]

theorem recLookup_buildRec (names : List String) (σ : String → String) (j : String) :
    recLookup (buildRec names σ) j
      = if j ∈ names then some (.str (σ j)) else none := by
  unfold buildRec
  rw [recLookup_foldl_setKey]
  rfl

theorem safeSeg_ne_empty (s : String) (h : safeSeg s = true) : s ≠ "" := by
  unfold safeSeg at h
  exact fun he => by simp [he] at h

theorem safeSeg_not_dotstring (s : String) (h : safeSeg s = true) :
    s ≠ "." ∧ s ≠ ".." := by
  unfold safeSeg at h
  refine ⟨fun he => by simp [he] at h, fun he => by simp [he] at h⟩

theorem safeSeg_char_facts (s : String) (h : safeSeg s = true) :
    ∀ c ∈ s.data, inPathEncodeSet c = false ∧ isSlashChar c = false ∧ c ≠ '%' := by
  unfold safeSeg at h
  simp only [Bool.and_eq_true, List.all_eq_true] at h
  intro c hc
  have := h.2 c hc
  simp only [Bool.and_eq_true, Bool.not_eq_true', decide_eq_true_eq] at this
  exact ⟨this.1.1, this.1.2, this.2⟩

theorem safeSeg_chars (s : String) (h : safeSeg s = true) :
    ∀ c ∈ s.data, c ≠ '/' ∧ c ≠ '?' ∧ c ≠ '#' := by
  intro c hc
  obtain ⟨hpe, hsl, -⟩ := safeSeg_char_facts s h c hc
  refine ⟨?_, ?_, ?_⟩
  · intro he; rw [he] at hsl; exact absurd hsl (by decide)
  · intro he; rw [he] at hpe; exact absurd hpe (by decide)
  · intro he; rw [he] at hpe; exact absurd hpe (by decide)

theorem safeSeg_ne_slash (s : String) (h : safeSeg s = true) : s ≠ "/" := by
  intro he
  subst he
  have := safeSeg_chars _ h '/' (by decide)
  exact this.1 rfl

theorem getAstSegments_plain (t : RAST) (hp : plainSafe t = true) :
    getAstSegments t = (plainSegs t).map fun n => [n] := by
  match t with
  | .literal s =>
    unfold plainSafe at hp
    simp [getAstSegments, plainSegs, safeSeg_ne_slash s hp]
  | .param n => rfl
  | .concatNode l r =>
    unfold plainSafe at hp
    rw [Bool.and_eq_true] at hp
    simp [getAstSegments, plainSegs, getAstSegments_plain l hp.1, getAstSegments_plain r hp.2]

theorem plainSegs_ne_nil (t : RAST) : plainSegs t ≠ [] := by
  match t with
  | .concatNode l r =>
    simp only [plainSegs]
    intro h
    exact plainSegs_ne_nil l (List.append_eq_nil.mp h).1
  | .literal s => simp [plainSegs]
  | .param n => simp [plainSegs]
  | .unnamedParam => simp [plainSegs]
  | .zeroOrMore x => simp [plainSegs]
  | .oneOrMore x => simp [plainSegs]
  | .optional x => simp [plainSegs]
  | .prefixed p x => simp [plainSegs]
  | .queryParams p ps => simp [plainSegs]
  | .withSchema x => simp [plainSegs]

theorem paramNames_eq_filterMap (t : RAST) :
    paramNames t = (plainSegs t).filterMap fun n =>
      match n with
      | .param nm => some nm
      | _ => none := by
  match t with
  | .concatNode l r =>
    simp [paramNames, plainSegs, List.filterMap_append,
      paramNames_eq_filterMap l, paramNames_eq_filterMap r]
  | .literal s => rfl
  | .param n => rfl
  | .unnamedParam => rfl
  | .zeroOrMore x => rfl
  | .oneOrMore x => rfl
  | .optional x => rfl
  | .prefixed p x => rfl
  | .queryParams p ps => rfl
  | .withSchema x => rfl

theorem plainSegs_shape (t : RAST) (hp : plainSafe t = true) :
    ∀ n ∈ plainSegs t,
      (∃ s, n = .literal s ∧ safeSeg s = true) ∨
      (∃ nm, n = .param nm ∧ nm ∈ paramNames t) := by
  match t with
  | .literal s =>
    intro n hn
    simp [plainSegs] at hn
    subst hn
    exact Or.inl ⟨s, rfl, hp⟩
  | .param nm =>
    intro n hn
    simp [plainSegs] at hn
    subst hn
    exact Or.inr ⟨nm, rfl, by simp [paramNames]⟩
  | .concatNode l r =>
    unfold plainSafe at hp
    rw [Bool.and_eq_true] at hp
    intro n hn
    simp only [plainSegs, List.mem_append] at hn
    rcases hn with hn | hn
    · rcases plainSegs_shape l hp.1 n hn with h | ⟨nm, he, hm⟩
      · exact Or.inl h
      · exact Or.inr ⟨nm, he, by simp [paramNames, hm]⟩
    · rcases plainSegs_shape r hp.2 n hn with h | ⟨nm, he, hm⟩
      · exact Or.inl h
      · exact Or.inr ⟨nm, he, by simp [paramNames, hm]⟩

theorem splitCharList_cons_self (c : Char) (l : List Char) :
    splitCharList c (c :: l) = [] :: splitCharList c l := by
  simp only [splitCharList]
  match h : splitCharList c l with
  | [] => exact absurd h (splitCharList_ne_nil c l)
  | hd :: tl => simp

theorem splitCharList_cons_ne (c x : Char) (l : List Char) (hx : ¬x = c) :
    ∃ hd tl, splitCharList c l = hd :: tl ∧ splitCharList c (x :: l) = (x :: hd) :: tl := by
  match h : splitCharList c l with
  | [] => exact absurd h (splitCharList_ne_nil c l)
  | hd :: tl =>
    refine ⟨hd, tl, rfl, ?_⟩
    simp only [splitCharList, h]
    simp [hx]

theorem splitCharList_append_clean (c : Char) (v l : List Char) (hv : ∀ ch ∈ v, ¬ch = c) :
    ∃ hd tl, splitCharList c l = hd :: tl ∧ splitCharList c (v ++ l) = (v ++ hd) :: tl := by
  induction v with
  | nil =>
    match h : splitCharList c l with
    | [] => exact absurd h (splitCharList_ne_nil c l)
    | hd :: tl => exact ⟨hd, tl, rfl, by simpa using h⟩
  | cons x xs ih =>
    obtain ⟨hd, tl, h1, h2⟩ := ih fun ch hch => hv ch (by simp [hch])
    obtain ⟨hd', tl', h1', h2'⟩ :=
      splitCharList_cons_ne c x (xs ++ l) (hv x (by simp))
    rw [h2] at h1'
    cases h1'
    refine ⟨hd, tl, h1, ?_⟩
    simpa using h2'

theorem splitCharList_join_slash (vs : List (List Char))
    (hv : ∀ v ∈ vs, ∀ ch ∈ v, ¬ch = '/') :
    splitCharList '/' ((vs.map fun v => '/' :: v).join) = [] :: vs := by
  induction vs with
  | nil => rfl
  | cons v rest ih =>
    simp only [List.map_cons, List.join_cons, List.cons_append]
    rw [splitCharList_cons_self]
    obtain ⟨hd, tl, h1, h2⟩ := splitCharList_append_clean '/' v ((rest.map fun v => '/' :: v).join)
      (fun ch hch => hv v (by simp) ch hch)
    rw [ih (fun w hw ch hch => hv w (by simp [hw]) ch hch)] at h1
    cases h1
    rw [h2]
    simp

theorem splitFirstCharList_of_not_mem (c : Char) (l : List Char) (h : c ∉ l) :
    splitFirstCharList c l = (l, none) := by
  induction l with
  | nil => rfl
  | cons x xs ih =>
    have hx : ¬x = c := fun he => h (by simp [he])
    simp only [splitFirstCharList, if_neg hx]
    rw [ih (fun hm => h (by simp [hm]))]

theorem mk_data_eta (s : String) : String.mk s.data = s := by
  obtain ⟨l⟩ := s
  rfl

theorem safeSeg_not_dot (v : String) (h : safeSeg v = true) :
    isDoubleDotSeg v.data = false ∧ isSingleDotSeg v.data = false := by
  obtain ⟨hdot, hddot⟩ := safeSeg_not_dotstring v h
  have hpct : ∀ c ∈ v.data, c ≠ '%' := fun c hc => (safeSeg_char_facts v h c hc).2.2
  have hstr : ∀ l : List Char, v.data = l → v = String.mk l := by
    intro l hl
    rw [← hl, mk_data_eta]
  constructor
  · rw [Bool.eq_false_iff]
    intro hd
    unfold isDoubleDotSeg at hd
    simp only [decide_eq_true_eq] at hd
    rcases hd with h1 | h1 | h1 | h1 | h1 | h1 | h1 | h1 | h1
    · exact hddot (hstr _ h1)
    all_goals exact hpct '%' (by rw [h1]; decide) rfl
  · rw [Bool.eq_false_iff]
    intro hd
    unfold isSingleDotSeg at hd
    simp only [decide_eq_true_eq] at hd
    rcases hd with h1 | h1 | h1
    · exact hdot (hstr _ h1)
    all_goals exact hpct '%' (by rw [h1]; decide) rfl

theorem dropWhile_eq_self_of_all {p : Char → Bool} (l : List Char)
    (h : ∀ c ∈ l, p c = false) : l.dropWhile p = l := by
  match l with
  | [] => rfl
  | x :: xs => simp [List.dropWhile_cons, h x (by simp)]

theorem filter_eq_self_of_all {p : Char → Bool} (l : List Char)
    (h : ∀ c ∈ l, p c = true) : l.filter p = l := by
  induction l with
  | nil => rfl
  | cons x xs ih =>
    simp [List.filter_cons, h x (by simp), ih fun c hc => h c (by simp [hc])]

theorem trimC0SpaceEnds_of_clean (l : List Char) (h : ∀ c ∈ l, isC0OrSpace c = false) :
    trimC0SpaceEnds l = l := by
  unfold trimC0SpaceEnds
  rw [dropWhile_eq_self_of_all l h,
    dropWhile_eq_self_of_all l.reverse fun c hc => h c (List.mem_reverse.mp hc),
    List.reverse_reverse]

theorem splitSlashList_ne_nil (l : List Char) : splitSlashList l ≠ [] := by
  match l with
  | [] => simp [splitSlashList]
  | x :: xs =>
    simp only [splitSlashList]
    match h : splitSlashList xs with
    | [] => simp
    | hd :: tl =>
      by_cases hx : isSlashChar x = true
      · simp [hx]
      · simp [hx]

theorem splitSlashList_cons_slash (l : List Char) :
    splitSlashList ('/' :: l) = [] :: splitSlashList l := by
  simp only [splitSlashList]
  match h : splitSlashList l with
  | [] => exact absurd h (splitSlashList_ne_nil l)
  | hd :: tl => simp [isSlashChar]

theorem splitSlashList_cons_ne (x : Char) (l : List Char) (hx : isSlashChar x = false) :
    ∃ hd tl, splitSlashList l = hd :: tl ∧ splitSlashList (x :: l) = (x :: hd) :: tl := by
  match h : splitSlashList l with
  | [] => exact absurd h (splitSlashList_ne_nil l)
  | hd :: tl =>
    refine ⟨hd, tl, rfl, ?_⟩
    simp only [splitSlashList, h]
    simp [hx]

theorem splitSlashList_append_clean (v l : List Char)
    (hv : ∀ ch ∈ v, isSlashChar ch = false) :
    ∃ hd tl, splitSlashList l = hd :: tl ∧ splitSlashList (v ++ l) = (v ++ hd) :: tl := by
  induction v with
  | nil =>
    match h : splitSlashList l with
    | [] => exact absurd h (splitSlashList_ne_nil l)
    | hd :: tl => exact ⟨hd, tl, rfl, by simpa using h⟩
  | cons x xs ih =>
    obtain ⟨hd, tl, h1, h2⟩ := ih fun ch hch => hv ch (by simp [hch])
    obtain ⟨hd', tl', h1', h2'⟩ := splitSlashList_cons_ne x (xs ++ l) (hv x (by simp))
    rw [h2] at h1'
    cases h1'
    refine ⟨hd, tl, h1, ?_⟩
    simpa using h2'

theorem splitSlashList_join (vs : List (List Char))
    (hv : ∀ v ∈ vs, ∀ ch ∈ v, isSlashChar ch = false) :
    splitSlashList ((vs.map fun v => '/' :: v).join) = [] :: vs := by
  induction vs with
  | nil => rfl
  | cons v rest ih =>
    simp only [List.map_cons, List.join_cons, List.cons_append]
    rw [splitSlashList_cons_slash]
    obtain ⟨hd, tl, h1, h2⟩ := splitSlashList_append_clean v
      ((rest.map fun v => '/' :: v).join) (fun ch hch => hv v (by simp) ch hch)
    rw [ih fun w hw ch hch => hv w (by simp [hw]) ch hch] at h1
    cases h1
    rw [h2]
    simp

theorem resolveDotSegments_clean (acc segs : List (List Char))
    (h : ∀ s ∈ segs, isDoubleDotSeg s = false ∧ isSingleDotSeg s = false) :
    resolveDotSegments acc segs = acc ++ segs := by
  match segs with
  | [] => simp [resolveDotSegments]
  | s :: rest =>
    obtain ⟨hd, hs⟩ := h s (by simp)
    have hcond : ¬(rest = [] ∧ (isDoubleDotSeg s = true ∨ isSingleDotSeg s = true)) := by
      rintro ⟨-, hor | hor⟩
      · rw [hd] at hor; exact absurd hor (by decide)
      · rw [hs] at hor; exact absurd hor (by decide)
    have hacc : (if isDoubleDotSeg s = true then acc.dropLast
        else if isSingleDotSeg s = true then acc else acc ++ [s]) = acc ++ [s] := by
      rw [hd, hs]
      simp
    simp only [resolveDotSegments]
    rw [if_neg hcond, hacc,
      resolveDotSegments_clean (acc ++ [s]) rest fun x hx => h x (by simp [hx])]
    simp

theorem encodePathChar_clean (c : Char) (h : inPathEncodeSet c = false) :
    encodePathChar c = [c] := by
  unfold encodePathChar
  rw [h]
  simp

theorem encodePathSeg_clean (seg : List Char) (h : ∀ c ∈ seg, inPathEncodeSet c = false) :
    encodePathSeg seg = seg := by
  induction seg with
  | nil => rfl
  | cons x xs ih =>
    show encodePathChar x ++ encodePathSeg xs = x :: xs
    rw [encodePathChar_clean x (h x (by simp)), ih fun c hc => h c (by simp [hc])]
    rfl

theorem formatPart_safe (v : String) (h : safeSeg v = true) : formatPart v = "/" ++ v := by
  have hch := safeSeg_chars v h
  have hne := safeSeg_ne_empty v h
  unfold formatPart
  have hq : ¬(strStartsWith v "\\?" ∨ strStartsWith v "?") := by
    rintro (hp | hp)
    · unfold strStartsWith at hp
      have hsub := (List.isPrefixOf_iff_prefix.mp hp).subset
      have : '?' ∈ v.data := hsub (by decide)
      exact (hch '?' this).2.1 rfl
    · unfold strStartsWith at hp
      have hsub := (List.isPrefixOf_iff_prefix.mp hp).subset
      have : '?' ∈ v.data := hsub (by decide)
      exact (hch '?' this).2.1 rfl
  rw [if_neg hq]
  have hdrop : v.data.dropWhile (· = '/') = v.data := by
    match hd : v.data with
    | [] => rfl
    | c :: rest =>
      have : ¬c = '/' := (hch c (by rw [hd]; simp)).1
      simp [List.dropWhile_cons, this]
  rw [hdrop, mk_data_eta]
  rw [if_neg (fun he => hne he)]

theorem pathJoin_data (vs : List String) (hv : ∀ v ∈ vs, safeSeg v = true) :
    (pathJoin vs).data = ((vs.map fun v => '/' :: v.data)).join := by
  induction vs with
  | nil => rfl
  | cons v rest ih =>
    simp only [pathJoin, List.map_cons, List.join_cons]
    rw [formatPart_safe v (hv v (by simp))]
    show (("/" ++ v) ++ pathJoin rest).data = _
    rw [String.data_append, String.data_append]
    rw [ih (fun w hw => hv w (by simp [hw]))]
    rfl

theorem dropLastEmpty_of_ne (vs : List String) (hv : ∀ v ∈ vs, v ≠ "") :
    dropLastEmpty vs = vs := by
  unfold dropLastEmpty
  split
  · rfl
  next s rest heq =>
    rw [if_neg]
    exact hv s (List.mem_reverse.mp (by rw [heq]; simp))

theorem getPathAndQuery_pathJoin (vs : List String) (hne : vs ≠ [])
    (hv : ∀ v ∈ vs, safeSeg v = true) :
    getPathAndQuery (pathJoin vs) = (vs, []) := by
  have hdata := pathJoin_data vs hv
  have hchar : ∀ c ∈ (pathJoin vs).data, c = '/' ∨
      (inPathEncodeSet c = false ∧ isSlashChar c = false ∧ c ≠ '%') := by
    intro c hc
    rw [hdata] at hc
    obtain ⟨l, hl, hcl⟩ := List.mem_join.mp hc
    obtain ⟨v, hvmem, rfl⟩ := List.mem_map.mp hl
    rcases List.mem_cons.mp hcl with rfl | hcv
    · exact Or.inl rfl
    · exact Or.inr (safeSeg_char_facts v (hv v hvmem) c hcv)
  have hC0 : ∀ c ∈ (pathJoin vs).data, isC0OrSpace c = false := by
    intro c hc
    rcases hchar c hc with rfl | ⟨hpe, -, -⟩
    · decide
    · rw [Bool.eq_false_iff] at hpe ⊢
      intro hcs
      refine hpe ?_
      simp only [isC0OrSpace, decide_eq_true_eq] at hcs
      simp only [inPathEncodeSet, decide_eq_true_eq]
      tauto
  have hTab : ∀ c ∈ (pathJoin vs).data, (!isTabOrNewline c) = true := by
    intro c hc
    rcases hchar c hc with rfl | ⟨hpe, -, -⟩
    · decide
    · rw [Bool.not_eq_true']
      rw [Bool.eq_false_iff] at hpe ⊢
      intro ht
      refine hpe ?_
      simp only [isTabOrNewline, decide_eq_true_eq] at ht
      simp only [inPathEncodeSet, decide_eq_true_eq]
      rcases ht with rfl | rfl | rfl
      · exact Or.inl (by decide)
      · exact Or.inl (by decide)
      · exact Or.inl (by decide)
  have hnoHash : '#' ∉ (pathJoin vs).data := by
    intro hm
    rcases hchar '#' hm with h | ⟨hpe, -, -⟩
    · exact absurd h (by decide)
    · exact absurd hpe (by decide)
  have hnoQ : '?' ∉ (pathJoin vs).data := by
    intro hm
    rcases hchar '?' hm with h | ⟨hpe, -, -⟩
    · exact absurd h (by decide)
    · exact absurd hpe (by decide)
  have hurlsegs : urlPathSegments (pathJoin vs).data = vs.map String.data := by
    match vs, hne with
    | v :: vs', _ =>
      have hvsafe := hv v (by simp)
      match hvd : v.data with
      | [] =>
        refine absurd ?_ (safeSeg_ne_empty v hvsafe)
        have := congrArg String.mk hvd
        rwa [mk_data_eta] at this
      | d :: ds =>
        have hdfacts := safeSeg_char_facts v hvsafe d (by rw [hvd]; simp)
        have hJdef : (pathJoin (v :: vs')).data
            = '/' :: (d :: (ds ++ ((vs'.map fun w => '/' :: w.data).join))) := by
          rw [hdata]
          simp only [List.map_cons, List.join_cons, List.cons_append, hvd]
        rw [hJdef]
        simp only [urlPathSegments]
        have hcond1 : ¬(isSlashChar '/' = true ∧ isSlashChar d = true) := by
          rintro ⟨-, h2⟩
          rw [hdfacts.2.1] at h2
          exact absurd h2 (by decide)
        rw [if_neg hcond1, if_pos (by decide : isSlashChar '/' = true)]
        have hJ : splitSlashList ((vs'.map fun w => '/' :: w.data).join)
            = [] :: vs'.map String.data := by
          have hrw : (vs'.map fun w => '/' :: w.data)
              = ((vs'.map String.data).map fun dd => '/' :: dd) := by
            rw [List.map_map]
            rfl
          rw [hrw]
          refine splitSlashList_join (vs'.map String.data) ?_
          intro w hw ch hch
          obtain ⟨u, hum, rfl⟩ := List.mem_map.mp hw
          exact (safeSeg_char_facts u (hv u (by simp [hum])) ch hch).2.1
        obtain ⟨hd', tl', h1, h2⟩ := splitSlashList_append_clean v.data
          ((vs'.map fun w => '/' :: w.data).join)
          (fun ch hch => (safeSeg_char_facts v hvsafe ch hch).2.1)
        rw [hJ] at h1
        cases h1
        rw [hvd] at h2
        simp only [List.cons_append] at h2
        rw [h2]
        simp
        rw [hvd]
  have hnodot : ∀ s ∈ vs.map String.data,
      isDoubleDotSeg s = false ∧ isSingleDotSeg s = false := by
    intro s hs
    obtain ⟨v, hvm, rfl⟩ := List.mem_map.mp hs
    exact safeSeg_not_dot v (hv v hvm)
  have henc : (vs.map String.data).map (fun seg => '/' :: encodePathSeg seg)
      = (vs.map String.data).map fun seg => '/' :: seg := by
    refine List.map_congr_left ?_
    intro seg hseg
    obtain ⟨v, hvm, rfl⟩ := List.mem_map.mp hseg
    rw [encodePathSeg_clean _ fun c hc => (safeSeg_char_facts v (hv v hvm) c hc).1]
  have hpname : String.mk (((vs.map String.data).map fun seg => '/' :: seg).join)
      = pathJoin vs := by
    have hmm : ((vs.map String.data).map fun seg => '/' :: seg)
        = vs.map fun v => '/' :: v.data := by
      rw [List.map_map]
      rfl
    rw [hmm, ← hdata, mk_data_eta]
  have hsegs : strSplitChar '/' (pathJoin vs) = "" :: vs := by
    unfold strSplitChar
    rw [hdata]
    have : (vs.map fun v => '/' :: v.data) = ((vs.map String.data).map fun d => '/' :: d) := by
      rw [List.map_map]
      rfl
    rw [this]
    rw [splitCharList_join_slash (vs.map String.data) ?clean]
    case clean =>
      intro d hd ch hch
      obtain ⟨v, hvmem, rfl⟩ := List.mem_map.mp hd
      exact (safeSeg_chars v (hv v hvmem) ch hch).1
    simp only [List.map_cons, List.map_map]
    have : (String.mk ∘ String.data) = id := funext mk_data_eta
    rw [this, List.map_id]
  unfold getPathAndQuery
  dsimp only []
  rw [trimC0SpaceEnds_of_clean _ hC0, filter_eq_self_of_all _ hTab,
    splitFirstCharList_of_not_mem '#' _ hnoHash]
  dsimp only []
  rw [splitFirstCharList_of_not_mem '?' _ hnoQ]
  dsimp only []
  rw [hurlsegs, resolveDotSegments_clean [] _ hnodot, List.nil_append,
    henc, hpname, hsegs]
  have hdh : dropHeadEmpty ("" :: vs) = vs := by simp [dropHeadEmpty]
  rw [hdh, dropLastEmpty_of_ne vs fun v hvm => safeSeg_ne_empty v (hv v hvm)]
  rfl

theorem runMatchers_plain (σ : String → String) : ∀ (ns : List RAST) (q : Query) (ctx : Nat)
    (acc : Rec),
    (∀ n ∈ ns, (∃ s, n = .literal s ∧ safeSeg s = true) ∨
      (∃ nm, n = .param nm ∧ safeSeg (σ nm) = true)) →
    runMatchers (compileMatchers (ns.map fun n => [n]) ctx) (ns.map (renderSeg σ), q) acc
      = some (assignRec acc (ns.filterMap fun n =>
          match n with
          | .param nm => some (nm, Val.str (σ nm))
          | _ => none), ([], q))
  | [], q, ctx, acc, _ => rfl
  | n :: ns, q, ctx, acc, hns => by
    rcases hns n (by simp) with ⟨s, rfl, hs⟩ | ⟨nm, rfl, hnm⟩
    · show runMatchers
        ((astSegmentToMatcher [.literal s] ctx).1 ::
          compileMatchers (ns.map fun n => [n]) (astSegmentToMatcher [.literal s] ctx).2)
        (renderSeg σ (.literal s) :: ns.map (renderSeg σ), q) acc = _
      simp only [astSegmentToMatcher, simpleAstToMatcher, renderSeg]
      simp only [runMatchers, if_true]
      show runMatchers (compileMatchers (ns.map fun n => [n]) ctx)
        (ns.map (renderSeg σ), q) (assignRec acc []) = _
      have hacc : assignRec acc [] = acc := rfl
      rw [hacc, runMatchers_plain σ ns q ctx acc (fun m hm => hns m (by simp [hm]))]
      rfl
    · show runMatchers
        ((astSegmentToMatcher [.param nm] ctx).1 ::
          compileMatchers (ns.map fun n => [n]) (astSegmentToMatcher [.param nm] ctx).2)
        (renderSeg σ (.param nm) :: ns.map (renderSeg σ), q) acc = _
      simp only [astSegmentToMatcher, simpleAstToMatcher, renderSeg]
      simp only [runMatchers, getParamByKey]
      rw [if_neg (by simp), if_neg (by simp)]
      rw [if_neg (safeSeg_ne_empty _ hnm)]
      show runMatchers (compileMatchers (ns.map fun n => [n]) ctx)
        (ns.map (renderSeg σ), q) (assignRec acc [(nm, Val.str (σ nm))]) = _
      rw [runMatchers_plain σ ns q ctx (assignRec acc [(nm, Val.str (σ nm))])
        (fun m hm => hns m (by simp [hm]))]
      rfl

theorem astToMatcher_plain (t : RAST) (hp : plainSafe t = true) (σ : String → String)
    (hσ : ∀ n ∈ paramNames t, safeSeg (σ n) = true) (e : Bool) (q : Query) :
    astToMatcher t e ((plainSegs t).map (renderSeg σ)) q
      = some (buildRec (paramNames t) σ) := by
  unfold astToMatcher
  rw [getAstSegments_plain t hp]
  have hns : ∀ n ∈ plainSegs t, (∃ s, n = .literal s ∧ safeSeg s = true) ∨
      (∃ nm, n = .param nm ∧ safeSeg (σ nm) = true) := by
    intro n hn
    rcases plainSegs_shape t hp n hn with h | ⟨nm, he, hm⟩
    · exact Or.inl h
    · exact Or.inr ⟨nm, he, hσ nm hm⟩
  rw [runMatchers_plain σ (plainSegs t) q 0 [] hns]
  show (if e = true ∧ ¬[] = ([] : List String) then none else some _) = _
  rw [if_neg (by simp)]
  congr 1
  rw [paramNames_eq_filterMap t]
  unfold buildRec assignRec
  have hmapfm : (List.filterMap (fun n =>
      match n with
      | RAST.param nm => some (nm, Val.str (σ nm))
      | _ => none) (plainSegs t))
      = (List.filterMap (fun n =>
          match n with
          | RAST.param nm => some nm
          | _ => none) (plainSegs t)).map fun nm => (nm, Val.str (σ nm)) := by
    rw [List.map_filterMap]
    congr 1
    funext n
    match n with
    | .param nm => rfl
    | .literal s => rfl
    | .unnamedParam => rfl
    | .zeroOrMore x => rfl
    | .oneOrMore x => rfl
    | .optional x => rfl
    | .prefixed p x => rfl
    | .concatNode a b => rfl
    | .queryParams a b => rfl
    | .withSchema x => rfl
  rw [hmapfm, List.foldl_map]

theorem compileInterpParts_plain (σ : String → String) : ∀ (ns : List RAST) (ctx : Nat),
    (∀ n ∈ ns, (∃ s, n = .literal s) ∨ (∃ nm, n = .param nm)) →
    compileInterpParts (ns.map fun n => [n]) ctx
      = ns.map fun n =>
          match n with
          | .literal s => InterpolationPart.lit s
          | .param nm => .fnPart (getParam nm false false)
          | _ => .fnPart fun _ => none
  | [], _, _ => rfl
  | n :: ns, ctx, hns => by
    rcases hns n (by simp) with ⟨s, rfl⟩ | ⟨nm, rfl⟩
    · show (astSegmentToInterpolationPart [.literal s] ctx).1 ::
        compileInterpParts (ns.map fun n => [n]) (astSegmentToInterpolationPart [.literal s] ctx).2
          = _
      have hred : astSegmentToInterpolationPart [.literal s] ctx
          = (InterpolationPart.lit s, ctx) := rfl
      rw [hred]
      rw [compileInterpParts_plain σ ns ctx (fun m hm => hns m (by simp [hm]))]
      rfl
    · show (astSegmentToInterpolationPart [.param nm] ctx).1 ::
        compileInterpParts (ns.map fun n => [n]) (astSegmentToInterpolationPart [.param nm] ctx).2
          = _
      have hred : astSegmentToInterpolationPart [.param nm] ctx
          = (InterpolationPart.fnPart (getParam nm false false), ctx) := rfl
      rw [hred]
      rw [compileInterpParts_plain σ ns ctx (fun m hm => hns m (by simp [hm]))]
      rfl

theorem renderParts_plain (σ : String → String) (P : Rec) : ∀ (ns : List RAST),
    (∀ n ∈ ns, (∃ s, n = .literal s) ∨
      (∃ nm, n = .param nm ∧ recLookup P nm = some (.str (σ nm)) ∧ ¬σ nm = "")) →
    (ns.map fun n =>
        match n with
        | .literal s => InterpolationPart.lit s
        | .param nm => .fnPart (getParam nm false false)
        | _ => .fnPart fun _ => none).mapM (InterpolationPart.render P)
      = some (ns.map (renderSeg σ))
  | [], _ => rfl
  | n :: ns, hns => by
    rcases hns n (by simp) with ⟨s, rfl⟩ | ⟨nm, rfl, hlk, hne⟩
    · rw [List.map_cons, List.mapM_cons]
      rw [renderParts_plain σ P ns (fun m hm => hns m (by simp [hm]))]
      rfl
    · rw [List.map_cons, List.mapM_cons]
      have hr : InterpolationPart.render P (.fnPart (getParam nm false false)) = some (σ nm) := by
        show getParam nm false false P = some (σ nm)
        unfold getParam
        rw [hlk]
        simp [hne]
      rw [hr]
      rw [renderParts_plain σ P ns (fun m hm => hns m (by simp [hm]))]
      rfl

theorem pathJoin_ne_empty (vs : List String) (hne : vs ≠ [])
    (hv : ∀ v ∈ vs, safeSeg v = true) : ¬pathJoin vs = "" := by
  intro h
  have hd := congrArg String.data h
  rw [pathJoin_data vs hv] at hd
  match vs, hne with
  | v :: rest, _ => simp at hd

theorem renders_safe (t : RAST) (hp : plainSafe t = true) (σ : String → String)
    (hσ : ∀ n ∈ paramNames t, safeSeg (σ n) = true) :
    ∀ v ∈ (plainSegs t).map (renderSeg σ), safeSeg v = true := by
  intro v hv
  obtain ⟨n, hn, rfl⟩ := List.mem_map.mp hv
  rcases plainSegs_shape t hp n hn with ⟨s, rfl, hs⟩ | ⟨nm, rfl, hm⟩
  · exact hs
  · exact hσ nm hm

theorem interpolate_plain (t : RAST) (hp : plainSafe t = true) (σ : String → String)
    (hσ : ∀ n ∈ paramNames t, safeSeg (σ n) = true) (opts : RouteOptions) :
    Route.interpolate ⟨t, opts⟩ (buildRec (paramNames t) σ)
      = some (pathJoin ((plainSegs t).map (renderSeg σ))) := by
  have hshape' : ∀ n ∈ plainSegs t, (∃ s, n = .literal s) ∨ (∃ nm, n = .param nm) := by
    intro n hn
    rcases plainSegs_shape t hp n hn with ⟨s, he, _⟩ | ⟨nm, he, _⟩
    · exact Or.inl ⟨s, he⟩
    · exact Or.inr ⟨nm, he⟩
  have hrenderable : ∀ n ∈ plainSegs t, (∃ s, n = .literal s) ∨
      (∃ nm, n = .param nm ∧
        recLookup (buildRec (paramNames t) σ) nm = some (.str (σ nm)) ∧ ¬σ nm = "") := by
    intro n hn
    rcases plainSegs_shape t hp n hn with ⟨s, he, _⟩ | ⟨nm, he, hm⟩
    · exact Or.inl ⟨s, he⟩
    · refine Or.inr ⟨nm, he, ?_, safeSeg_ne_empty _ (hσ nm hm)⟩
      rw [recLookup_buildRec, if_pos hm]
  have horslash : orSlash (pathJoin ((plainSegs t).map (renderSeg σ)))
      = pathJoin ((plainSegs t).map (renderSeg σ)) := by
    unfold orSlash
    rw [if_neg (pathJoin_ne_empty _ (by simp [plainSegs_ne_nil t]) (renders_safe t hp σ hσ))]
  unfold Route.interpolate astToInterpolation
  rw [getAstSegments_plain t hp, compileInterpParts_plain σ (plainSegs t) 0 hshape']
  by_cases hall : ((plainSegs t).map fun n =>
      match n with
      | RAST.literal s => InterpolationPart.lit s
      | RAST.param nm => InterpolationPart.fnPart (getParam nm false false)
      | _ => InterpolationPart.fnPart fun _ => none).all (·.isLit) = true
  · rw [if_pos hall]
    have hlits : ∀ n ∈ plainSegs t, ∃ s, n = .literal s := by
      intro n hn
      rcases hshape' n hn with h | ⟨nm, rfl⟩
      · exact h
      · have := List.all_eq_true.mp hall _ (List.mem_map.mpr ⟨.param nm, hn, rfl⟩)
        simp [InterpolationPart.isLit] at this
    have hvals : ((plainSegs t).map fun n =>
        match n with
        | RAST.literal s => InterpolationPart.lit s
        | RAST.param nm => InterpolationPart.fnPart (getParam nm false false)
        | _ => InterpolationPart.fnPart fun _ => none).map (·.litValue)
        = (plainSegs t).map (renderSeg σ) := by
      rw [List.map_map]
      refine List.map_congr_left ?_
      intro n hn
      obtain ⟨s, rfl⟩ := hlits n hn
      rfl
    rw [hvals, horslash]
  · rw [if_neg hall]
    show (do
      let vs ← ((plainSegs t).map fun n =>
        match n with
        | RAST.literal s => InterpolationPart.lit s
        | RAST.param nm => InterpolationPart.fnPart (getParam nm false false)
        | _ => InterpolationPart.fnPart fun _ => none).mapM
          (InterpolationPart.render (buildRec (paramNames t) σ))
      pure (orSlash (pathJoin vs))) = _
    rw [renderParts_plain σ (buildRec (paramNames t) σ) (plainSegs t) hrenderable]
    show some (orSlash (pathJoin ((plainSegs t).map (renderSeg σ)))) = _
    rw [horslash]

/-- C1 amended: for every route whose AST is built only from `Literal`,
`Param` and `Concat` nodes whose literal texts are `safeSeg` (non-empty, not
a dot segment `.` or `..`, and containing none of the characters rewritten
by the URL normalisation: the separators `/` and `\`, the cut points `?` and
`#`, `%`, and the path percent-encode set — C0 controls, space, DEL and
non-ASCII, `"`, `<`, `>`, backtick and braces), and for every parameter map
`P` assigning a `safeSeg` string to each declared parameter name, decoding
the interpolated string recovers `P`:
`match(interpolate(P)) = Some P` (equivalently, for such schema-free routes,
`decode(route, interpolate(route, P)) = P`), for either `end` flag.  `P` is
`buildRec (paramNames t) σ`, the record assigning `σ n` to each declared
name `n`. -/
theorem c1_plain_round_trip (t : RAST) (σ : String → String) (e : Bool)
    (hp : plainSafe t = true)
    (hσ : ∀ n ∈ paramNames t, safeSeg (σ n) = true) :
    (Route.interpolate ⟨t, ⟨e⟩⟩ (buildRec (paramNames t) σ)).bind
        (Route.match ⟨t, ⟨e⟩⟩)
      = some (buildRec (paramNames t) σ) := by
  rw [interpolate_plain t hp σ hσ ⟨e⟩]
  show Route.match ⟨t, ⟨e⟩⟩ (pathJoin ((plainSegs t).map (renderSeg σ)))
    = some (buildRec (paramNames t) σ)
  unfold Route.match
  rw [getPathAndQuery_pathJoin _ (by simp [plainSegs_ne_nil t]) (renders_safe t hp σ hσ)]
  exact astToMatcher_plain t hp σ hσ e []

/-- Witness for C1 amended at the route `Concat(Literal "articles",
Param "slug")` and the valuation mapping every name to `"123"`. -/
theorem c1_witness :
    plainSafe (.concatNode (.literal "articles") (.param "slug")) = true ∧
    (Route.interpolate ⟨.concatNode (.literal "articles") (.param "slug"), ⟨false⟩⟩
        (buildRec (paramNames (.concatNode (.literal "articles") (.param "slug")))
          fun _ => "123")).bind
      (Route.match ⟨.concatNode (.literal "articles") (.param "slug"), ⟨false⟩⟩)
      = some (buildRec (paramNames (.concatNode (.literal "articles") (.param "slug")))
          fun _ => "123") :=
  ⟨by decide,
   c1_plain_round_trip (.concatNode (.literal "articles") (.param "slug")) (fun _ => "123")
     false (by decide) (fun n _ => (by decide : safeSeg "123" = true))⟩

/-- C1 counterexample: the claim as stated fails for maps whose values are
non-empty and slash-free (so valid in the claim's sense) but are rewritten
by the URL normalisation of `getPathAndQuery` on the way back:
`P = {slug: "a?b"}` interpolates to `/a?b`, whose `?` starts the query part,
and decoding returns `{slug: "a"} ≠ P`; `P = {slug: "a b"}` interpolates to
`/a b`, whose space is percent-encoded, and decoding returns
`{slug: "a%20b"} ≠ P`; `P = {slug: "a\b"}` interpolates to `/a\b`, whose `\`
separates path segments, and decoding returns `{slug: "a"} ≠ P`. -/
theorem c1_counterexample :
    (Route.interpolate ⟨.param "slug", ⟨false⟩⟩ [("slug", .str "a?b")]).bind
        (Route.match ⟨.param "slug", ⟨false⟩⟩)
      = some [("slug", .str "a")] ∧
    some [("slug", Val.str "a")] ≠ some [("slug", Val.str "a?b")] ∧
    (Route.interpolate ⟨.param "slug", ⟨false⟩⟩ [("slug", .str "a b")]).bind
        (Route.match ⟨.param "slug", ⟨false⟩⟩)
      = some [("slug", .str "a%20b")] ∧
    some [("slug", Val.str "a%20b")] ≠ some [("slug", Val.str "a b")] ∧
    (Route.interpolate ⟨.param "slug", ⟨false⟩⟩ [("slug", .str "a\\b")]).bind
        (Route.match ⟨.param "slug", ⟨false⟩⟩)
      = some [("slug", .str "a")] ∧
    some [("slug", Val.str "a")] ≠ some [("slug", Val.str "a\\b")] ∧
    ("a?b" ≠ "" ∧ ('/' : Char) ∉ "a?b".data) ∧
    ("a b" ≠ "" ∧ ('/' : Char) ∉ "a b".data) ∧
    ("a\\b" ≠ "" ∧ ('/' : Char) ∉ "a\\b".data) := by
  refine ⟨by decide, by decide, by decide, by decide, by decide, by decide, by decide,
    by decide, by decide⟩
